import Mathlib

/-! A verification development for the script interpreter of `hello.go`.

The program is a pipeline `execute (analyse (parseScript text))`:

* `parseScript` cuts the script text into tokens at spaces and newlines,
* `analyse` turns the tokens into operations by keyword dispatch,
* `execute` runs the operations against a variable store and a skip flag.

The definitions below follow `hello.go` function by function and keep its
names.  Library functions of Go that the program calls (`strings.Replace`,
`strconv.Atoi`, `fmt.Sprint`) are modelled next to their first use.
-/

namespace Hello

/-! ## Data model -/

/-- A Go string is a sequence of bytes.  A byte is written here as the character
with the same code, so every Go string is one of these lists; the program only
ever compares bytes with ASCII characters. -/
abbrev GoString := List Char

/-- The Go struct `Token`: one field, the text of the token. -/
structure Token where
  Value : GoString
  deriving DecidableEq, Repr

/-! ## The lexer -/

/-- The call `strings.Replace(s, old, "", -1)` for a one-byte `old`: every
occurrence of the byte is removed. -/
def removeAll (s : GoString) (old : Char) : GoString :=
  s.filter (fun c => !(c == old))

/-- The body of the `for` loop of `parseScript`, run over the bytes of the script
that are still to be read, with the two loop variables `tokenList` and `token`. -/
def parseScriptLoop : List Char → List Token → GoString → List Token
  | [], tokenList, _ => tokenList
  | currentRune :: rest, tokenList, token =>
    let token := token ++ [currentRune]
    if currentRune = ' ' ∨ currentRune = '\n' then
      let cleanToken := removeAll token '\n'
      let cleanToken := removeAll cleanToken ' '
      parseScriptLoop rest (tokenList ++ [Token.mk cleanToken]) []
    else
      parseScriptLoop rest tokenList token

/-- The function `parseScript`: both loop variables start empty. -/
def parseScript (script : GoString) : List Token :=
  parseScriptLoop script [] []

/-- A byte that ends a token: a space or a newline. -/
def isDelimiter (c : Char) : Prop := c = ' ' ∨ c = '\n'

instance (c : Char) : Decidable (isDelimiter c) :=
  inferInstanceAs (Decidable (c = ' ' ∨ c = '\n'))

/-- A word: a string with no space and no newline in it. -/
def isWord (w : GoString) : Prop := ∀ c ∈ w, ¬ isDelimiter c

instance (w : GoString) : Decidable (isWord w) :=
  inferInstanceAs (Decidable (∀ c ∈ w, ¬ isDelimiter c))

/-- The script text made of the given words, each followed by its delimiter. -/
def joinWords : List (GoString × Char) → GoString
  | [] => []
  | (w, d) :: rest => w ++ d :: joinWords rest

/-! ## The analyser -/

/-- The operations of a script.  Go keeps them as values of seven struct types in
one `[]interface{}`; here they are the seven constructors of one type, each with
the fields of its struct. -/
inductive Operation where
  | DeclareOperation (VariableName : GoString)
  | AssignmentOperation (VariableName VariableValue : GoString)
  | IncrementOperation (VariableName IncrementValue : GoString)
  | DecrementOperation (VariableName DecrementValue : GoString)
  | PrintOperation (VariableName VariableValue : GoString)
  | BranchOperation (CompareTarget ComparisonOperator Comparison : GoString)
  | EndOfBranchOperation
  deriving DecidableEq, Repr

/-- Why a run of `analyse` yields no operation list.  `indexOutOfRange` is Go's
run-time panic on `tokenList[i]` with `i` at or past `len(tokenList)`;
`outOfFuel` belongs to the model only: the loop is run with a bound on its number
of iterations, and `analyse_never_outOfFuel` shows the bound is never reached. -/
inductive Failure where
  | indexOutOfRange
  | outOfFuel
  deriving DecidableEq, Repr

deriving instance DecidableEq for Except

/-- The `for` loop of `analyse`.  `cursor` and `operationList` are the loop
variables; the first argument after the token list bounds the iterations left.
An index expression `tokenList[i]` is the lookup `tokenList[i]?`, and a lookup
that finds nothing is the panic.  After a branch has added `k` to the cursor the
loop header adds one more. -/
def analyseLoop (tokenList : List Token) :
    Nat → Nat → List Operation → Except Failure (List Operation)
  | fuel, cursor, operationList =>
    if cursor < tokenList.length then
      match fuel with
      | 0 => .error .outOfFuel
      | fuel + 1 =>
        match tokenList[cursor]? with
        | none => .error .indexOutOfRange
        | some current =>
          if current.Value = "DECLARE".toList then
            match tokenList[cursor + 1]? with
            | some variableName =>
              analyseLoop tokenList fuel (cursor + 1 + 1)
                (operationList ++ [.DeclareOperation variableName.Value])
            | none => .error .indexOutOfRange
          else if current.Value = "SET".toList then
            match tokenList[cursor + 1]?, tokenList[cursor + 2]? with
            | some variableName, some variableValue =>
              analyseLoop tokenList fuel (cursor + 2 + 1)
                (operationList ++ [.AssignmentOperation variableName.Value variableValue.Value])
            | _, _ => .error .indexOutOfRange
          else if current.Value = "PRINT".toList then
            match tokenList[cursor + 1]? with
            | some variableName =>
              analyseLoop tokenList fuel (cursor + 1 + 1)
                (operationList ++ [.PrintOperation variableName.Value []])
            | none => .error .indexOutOfRange
          else if current.Value = "INCREMENT".toList then
            match tokenList[cursor + 1]?, tokenList[cursor + 2]? with
            | some variableName, some incrementValue =>
              analyseLoop tokenList fuel (cursor + 2 + 1)
                (operationList ++ [.IncrementOperation variableName.Value incrementValue.Value])
            | _, _ => .error .indexOutOfRange
          else if current.Value = "DECREMENT".toList then
            match tokenList[cursor + 1]?, tokenList[cursor + 2]? with
            | some variableName, some decrementValue =>
              analyseLoop tokenList fuel (cursor + 2 + 1)
                (operationList ++ [.DecrementOperation variableName.Value decrementValue.Value])
            | _, _ => .error .indexOutOfRange
          else if current.Value = "IF".toList then
            match tokenList[cursor + 1]?, tokenList[cursor + 2]?, tokenList[cursor + 3]? with
            | some compareTarget, some comparisonOperator, some comparison =>
              analyseLoop tokenList fuel (cursor + 3 + 1)
                (operationList ++ [.BranchOperation compareTarget.Value
                  comparisonOperator.Value comparison.Value])
            | _, _, _ => .error .indexOutOfRange
          else if current.Value = "ENDIF".toList then
            analyseLoop tokenList fuel (cursor + 1) (operationList ++ [.EndOfBranchOperation])
          else
            analyseLoop tokenList fuel (cursor + 1) operationList
    else
      .ok operationList

/-- The function `analyse`: the cursor starts at 0 with no operations.  Every
iteration moves the cursor forward, so `len(tokenList)` iterations are enough. -/
def analyse (tokenList : List Token) : Except Failure (List Operation) :=
  analyseLoop tokenList tokenList.length 0 []

/-! ## Go library functions used by the executor -/

/-- The two errors of package `strconv`. -/
inductive NumError where
  | ErrSyntax
  | ErrRange
  deriving DecidableEq, Repr

/-- Go's `int` on a 64-bit platform: arithmetic wraps around modulo `2^64` into
the range from `-2^63` to `2^63 - 1`. -/
def wrapInt64 (x : Int) : Int :=
  (x + 2 ^ 63) % 2 ^ 64 - 2 ^ 63

/-- The test that a byte is one of the decimal digits `'0'` to `'9'`. -/
def isDecimalDigit (c : Char) : Bool :=
  decide (48 ≤ c.toNat ∧ c.toNat ≤ 57)

/-- The digit loop of `strconv.ParseUint(s, 10, 0)`: `n` is the `uint64` value
read so far.  A byte that is not a decimal digit ends the loop with a syntax
error and value 0; a value that would pass `2^64 - 1` ends it at once with a
range error and the value `2^64 - 1`, whatever bytes follow. -/
def ParseUintLoop : List Char → Nat → Nat × Option NumError
  | [], n => (n, none)
  | c :: rest, n =>
    if isDecimalDigit c then
      let d := c.toNat - 48
      if n ≥ (2 ^ 64 - 1) / 10 + 1 then
        (2 ^ 64 - 1, some .ErrRange)
      else
        let n := (n * 10) % 2 ^ 64
        let n1 := (n + d) % 2 ^ 64
        if n1 < n ∨ n1 > 2 ^ 64 - 1 then
          (2 ^ 64 - 1, some .ErrRange)
        else
          ParseUintLoop rest n1
    else
      (0, some .ErrSyntax)

/-- The call `strconv.ParseUint(s, 10, 0)` of a string without sign: the empty
string is a syntax error. -/
def ParseUint (s : GoString) : Nat × Option NumError :=
  match s with
  | [] => (0, some .ErrSyntax)
  | _ => ParseUintLoop s 0

/-- The call `strconv.ParseInt(s, 10, 0)`: an optional sign, then `ParseUint`.  A
syntax error gives 0; a magnitude outside the 64-bit range gives the nearest
bound together with a range error. -/
def ParseInt (s : GoString) : Int × Option NumError :=
  match s with
  | [] => (0, some .ErrSyntax)
  | c :: rest =>
    let neg := decide (c = '-')
    let digits := if c = '+' ∨ c = '-' then rest else s
    match ParseUint digits with
    | (_, some .ErrSyntax) => (0, some .ErrSyntax)
    | (un, _) =>
      if !neg ∧ un ≥ 2 ^ 63 then
        (2 ^ 63 - 1, some .ErrRange)
      else if neg ∧ un > 2 ^ 63 then
        (-(2 ^ 63), some .ErrRange)
      else
        (if neg then -(un : Int) else (un : Int), none)

/-- The digit loop of the short-input path of `strconv.Atoi`; `none` is its
syntax error. -/
def AtoiFastLoop : List Char → Int → Option Int
  | [], n => some n
  | ch :: rest, n =>
    if isDecimalDigit ch then
      AtoiFastLoop rest (wrapInt64 (n * 10 + ((ch.toNat - 48 : Nat) : Int)))
    else
      none

/-- The function `strconv.Atoi` with a 64-bit `int`.  Inputs of 1 to 18 bytes take
a short path that reads the sign and the digits directly; all others go through
`ParseInt`.  The result is the pair of the value and the error, `none` for
`nil`. -/
def Atoi (s : GoString) : Int × Option NumError :=
  if 0 < s.length ∧ s.length < 19 then
    match s with
    | [] => (0, some .ErrSyntax)
    | c :: rest =>
      let digits := if c = '-' ∨ c = '+' then rest else s
      if digits.length < 1 then
        (0, some .ErrSyntax)
      else
        match AtoiFastLoop digits 0 with
        | none => (0, some .ErrSyntax)
        | some n => (if c = '-' then wrapInt64 (-n) else n, none)
  else
    ParseInt s

/-- The decimal digit for a value below ten. -/
def digitChar (d : Nat) : Char :=
  Char.ofNat (48 + d)

/-- The digit loop of Go's integer formatting: digits are produced from the last
to the first while the value is at least ten, then the leading digit.  The first
argument bounds the iterations; `formatUint` starts it with a bound that is
never reached. -/
def formatUintLoop : Nat → Nat → List Char → List Char
  | 0, u, buf => digitChar (u % 10) :: buf
  | fuel + 1, u, buf =>
    if u ≥ 10 then
      formatUintLoop fuel (u / 10) (digitChar (u % 10) :: buf)
    else
      digitChar u :: buf

/-- The decimal digits of a natural number. -/
def formatUint (u : Nat) : List Char :=
  formatUintLoop u u []

/-- The call `fmt.Sprint(n)` for an `int`: the decimal digits of the magnitude,
after a minus sign when the number is negative. -/
def Sprint (n : Int) : GoString :=
  if n < 0 then '-' :: formatUint n.natAbs else formatUint n.natAbs

/-! ## The executor -/

/-- The Go map `mem`: a partial function from names to values. -/
abbrev Memory := GoString → Option GoString

/-- The map made by `make(map[string]string)`. -/
def Memory.empty : Memory := fun _ => none

/-- The read `mem[k]`: the zero value `""` when the key is absent. -/
def Memory.read (mem : Memory) (k : GoString) : GoString :=
  (mem k).getD []

/-- The write `mem[k] = v`. -/
def Memory.write (mem : Memory) (k v : GoString) : Memory :=
  fun k1 => if k1 = k then some v else mem k1

/-- What `execute` holds between two operations: the map, the flag, and the
strings handed to `fmt.Println` so far, the oldest first. -/
structure ExecState where
  mem : Memory
  shouldSkipProcessing : Bool
  output : List GoString

/-- The value of `match` in the `BranchOperation` case: the comparison named by
the operator, and `true` for any other operator. -/
def branchMatch (comparisonTarget : Int) (comparisonOperator : GoString) (comparison : Int) :
    Bool :=
  if comparisonOperator = "<".toList then decide (comparisonTarget < comparison)
  else if comparisonOperator = ">".toList then decide (comparisonTarget > comparison)
  else if comparisonOperator = "==".toList then decide (comparisonTarget = comparison)
  else if comparisonOperator = "!=".toList then decide (comparisonTarget ≠ comparison)
  else true

/-- One iteration of the loop of `execute`: the type switch on the operation.
`fmt.Println(s)` adds `s` to the output; on standard output it is `s` followed
by a newline (`stdoutText`). -/
def executeOp (st : ExecState) : Operation → ExecState
  | .EndOfBranchOperation =>
    if st.shouldSkipProcessing then ExecState.mk st.mem false st.output else st
  | .DeclareOperation variableName =>
    if st.shouldSkipProcessing then st
    else ExecState.mk (st.mem.write variableName "null".toList) st.shouldSkipProcessing st.output
  | .AssignmentOperation variableName variableValue =>
    if st.shouldSkipProcessing then st
    else ExecState.mk (st.mem.write variableName variableValue) st.shouldSkipProcessing st.output
  | .PrintOperation variableName _ =>
    if st.shouldSkipProcessing then st
    else ExecState.mk st.mem st.shouldSkipProcessing (st.output ++ [st.mem.read variableName])
  | .IncrementOperation variableName incrementValue =>
    if st.shouldSkipProcessing then st
    else
      let initial := (Atoi (st.mem.read variableName)).1
      let valueToAdd := (Atoi incrementValue).1
      let result := wrapInt64 (initial + valueToAdd)
      ExecState.mk (st.mem.write variableName (Sprint result)) st.shouldSkipProcessing st.output
  | .DecrementOperation variableName decrementValue =>
    if st.shouldSkipProcessing then st
    else
      let initial := (Atoi (st.mem.read variableName)).1
      let valueToSubtract := (Atoi decrementValue).1
      let result := wrapInt64 (initial - valueToSubtract)
      ExecState.mk (st.mem.write variableName (Sprint result)) st.shouldSkipProcessing st.output
  | .BranchOperation compareTarget comparisonOperator comparison =>
    if st.shouldSkipProcessing then st
    else
      let comparisonTarget := (Atoi compareTarget).1
      let comparison := (Atoi comparison).1
      if !branchMatch comparisonTarget comparisonOperator comparison then
        ExecState.mk st.mem true st.output
      else st

/-- The loop of `execute` from a given state. -/
def executeLoop (operationList : List Operation) (st : ExecState) : ExecState :=
  operationList.foldl executeOp st

/-- The state `execute` starts from: an empty map and the flag false. -/
def ExecState.initial : ExecState :=
  ExecState.mk Memory.empty false []

/-- The function `execute`; its result is the list of the strings it hands to
`fmt.Println`, in order. -/
def execute (operationList : List Operation) : List GoString :=
  (executeLoop operationList ExecState.initial).output

/-- The pipeline of `main` on the text of the script file: the strings handed to
`fmt.Println`, or the failure of `analyse`. -/
def run (script : GoString) : Except Failure (List GoString) :=
  match analyse (parseScript script) with
  | .ok operationList => .ok (execute operationList)
  | .error e => .error e

/-! ## Notions used to state the properties -/

/-- The tokens with the given texts. -/
def tokens (values : List String) : List Token :=
  values.map (fun v => Token.mk v.toList)

/-- An operation list, or a failure, with some operations put in front. -/
def prependOps (ops : List Operation) :
    Except Failure (List Operation) → Except Failure (List Operation)
  | .ok rest => .ok (ops ++ rest)
  | .error e => .error e

/-- The seven keywords of the dispatch of `analyse`. -/
def isKeyword (v : GoString) : Prop :=
  v = "DECLARE".toList ∨ v = "SET".toList ∨ v = "PRINT".toList ∨ v = "INCREMENT".toList ∨
    v = "DECREMENT".toList ∨ v = "IF".toList ∨ v = "ENDIF".toList

instance (v : GoString) : Decidable (isKeyword v) :=
  inferInstanceAs (Decidable (_ ∨ _))

/-- The number of operand tokens a token takes when the cursor dispatches on it:
the arity of the keywords that have operands, and 0 for `ENDIF` and for a token
that is no keyword. -/
def arity (v : GoString) : Nat :=
  if v = "DECLARE".toList then 1
  else if v = "SET".toList then 2
  else if v = "PRINT".toList then 1
  else if v = "INCREMENT".toList then 2
  else if v = "DECREMENT".toList then 2
  else if v = "IF".toList then 3
  else 0

/-- The relation `CursorReaches tokenList cursor q`: the loop of `analyse`, with its
cursor at `cursor`, dispatches at `q` now or in a later iteration.  An iteration
moves the cursor past the token and its operands, which must all exist. -/
inductive CursorReaches (tokenList : List Token) : Nat → Nat → Prop where
  | here (cursor : Nat) : CursorReaches tokenList cursor cursor
  | step {cursor q : Nat} (t : Token) :
      tokenList[cursor]? = some t →
      cursor + arity t.Value < tokenList.length →
      CursorReaches tokenList (cursor + arity t.Value + 1) q →
      CursorReaches tokenList cursor q

/-- The positions at which the cursor of `analyse` dispatches, from position 0. -/
def DispatchesAt (tokenList : List Token) (q : Nat) : Prop :=
  CursorReaches tokenList 0 q

/-- The token at position `q` is a keyword and fewer tokens follow it than its
arity. -/
def LacksOperands (tokenList : List Token) (q : Nat) : Prop :=
  ∃ t, tokenList[q]? = some t ∧ tokenList.length - (q + 1) < arity t.Value

/-- The number written by a string of decimal digits read after the number `n`. -/
def decimalValue (ds : List Char) (n : Nat) : Nat :=
  ds.foldl (fun n c => n * 10 + (c.toNat - 48)) n

/-- The states in which the operations of a list are executed, one per
operation, starting from `st`. -/
def statesBefore : List Operation → ExecState → List ExecState
  | [], _ => []
  | op :: rest, st => st :: statesBefore rest (executeOp st op)

/-- The string an operation hands to `fmt.Println` in a state: a `PrintOperation`
reached with the flag false prints the value of its variable, the empty string
when the variable is absent; nothing else prints. -/
def printedLine (st : ExecState) : Operation → Option GoString
  | .PrintOperation variableName _ =>
    if st.shouldSkipProcessing then none
    else
      match st.mem variableName with
      | some value => some value
      | none => some []
  | _ => none

/-- The strings handed to `fmt.Println` by an operation list run from `st`, in
execution order. -/
def printedLines (operationList : List Operation) (st : ExecState) : List GoString :=
  (List.zip operationList (statesBefore operationList st)).filterMap
    (fun p => printedLine p.2 p.1)

/-- The test that an operation is a `PrintOperation`. -/
def isPrint : Operation → Bool
  | .PrintOperation _ _ => true
  | _ => false

/-- The range of Go's 64-bit `int`. -/
def InInt64 (x : Int) : Prop :=
  -(2 ^ 63) ≤ x ∧ x < 2 ^ 63

instance (x : Int) : Decidable (InInt64 x) :=
  inferInstanceAs (Decidable (_ ∧ _))

/-- One change of a variable by an integer operand written in decimal: `(true, d)`
is the `IncrementOperation` by `d`, and `(false, d)` the `DecrementOperation`
by `d`. -/
def changeOperation (variableName : GoString) (change : Bool × Int) : Operation :=
  if change.1 then .IncrementOperation variableName (Sprint change.2)
  else .DecrementOperation variableName (Sprint change.2)

/-- The signed sum of a sequence of changes, from 0: `+d` for an increment, `-d`
for a decrement. -/
def signedSum : List (Bool × Int) → Int
  | [] => 0
  | change :: rest => (if change.1 then change.2 else -change.2) + signedSum rest

/-- The text written to standard output by a run of `fmt.Println` calls: each
argument, followed by a newline. -/
def stdoutText : List GoString → GoString
  | [] => []
  | value :: rest => value ++ '\n' :: stdoutText rest

/-- The number of lines of a text in which every line ends with a newline. -/
def lineCount (text : GoString) : Nat :=
  text.countP (fun c => c == '\n')

/-- The strings an operation carries. -/
def operationStrings : Operation → List GoString
  | .DeclareOperation variableName => [variableName]
  | .AssignmentOperation variableName variableValue => [variableName, variableValue]
  | .IncrementOperation variableName incrementValue => [variableName, incrementValue]
  | .DecrementOperation variableName decrementValue => [variableName, decrementValue]
  | .PrintOperation variableName variableValue => [variableName, variableValue]
  | .BranchOperation compareTarget comparisonOperator comparison =>
    [compareTarget, comparisonOperator, comparison]
  | .EndOfBranchOperation => []

/-- The nearest integer in the range of Go's 64-bit `int`. -/
def clampInt64 (x : Int) : Int :=
  if x < -(2 ^ 63) then -(2 ^ 63) else if 2 ^ 63 - 1 < x then 2 ^ 63 - 1 else x

/-- The integer a text stands for in the arithmetic of the executor, told from the
text alone.  The body is the text after one leading `+` or `-`, if there is
one, and its leading digits are the decimal digits before the first other byte.
The integer is 0 when the body is empty, and when the body has a byte that is
not a decimal digit and its leading digits write a number below `2^64`.
Otherwise it is the number written by the leading digits, negated after a `-`,
brought into the 64-bit range. -/
def coercedValue (s : GoString) : Int :=
  match s with
  | [] => 0
  | c :: rest =>
    let body := if c = '+' ∨ c = '-' then rest else s
    let leading := body.takeWhile isDecimalDigit
    if body = [] ∨ (leading ≠ body ∧ decimalValue leading 0 < 2 ^ 64) then 0
    else clampInt64 (if c = '-' then -(decimalValue leading 0 : Int) else decimalValue leading 0)

/-! ## The lexer: proofs -/

theorem removeAll_append (s t : GoString) (c : Char) :
    removeAll (s ++ t) c = removeAll s c ++ removeAll t c := by
  simp [removeAll]

theorem removeAll_of_isWord {w : GoString} (hw : isWord w) {c : Char} (hc : isDelimiter c) :
    removeAll w c = w := by
  unfold removeAll
  rw [List.filter_eq_self]
  intro a ha
  have := hw a ha
  simp only [Bool.not_eq_true', beq_eq_false_iff_ne, ne_eq]
  rintro rfl
  exact this hc

theorem cleanToken_eq {w : GoString} (hw : isWord w) {d : Char} (hd : isDelimiter d) :
    removeAll (removeAll (w ++ [d]) '\n') ' ' = w := by
  rcases hd with rfl | rfl
  · have h1 : removeAll (w ++ [' ']) '\n' = w ++ [' '] := by
      rw [removeAll_append, removeAll_of_isWord hw (Or.inr rfl)]; rfl
    rw [h1, removeAll_append, removeAll_of_isWord hw (Or.inl rfl)]
    simp [removeAll]
  · have h1 : removeAll (w ++ ['\n']) '\n' = w := by
      rw [removeAll_append, removeAll_of_isWord hw (Or.inr rfl)]
      simp [removeAll]
    rw [h1, removeAll_of_isWord hw (Or.inl rfl)]

theorem isWord_append {a b : GoString} (ha : isWord a) (hb : isWord b) : isWord (a ++ b) := by
  intro c hc
  rcases List.mem_append.1 hc with h | h
  · exact ha c h
  · exact hb c h

/-- Reading a word and then a delimiter emits the buffer extended by the word. -/
theorem parseScriptLoop_word (w : GoString) (hw : isWord w) (d : Char) (hd : isDelimiter d)
    (rest : List Char) (tokenList : List Token) (token : GoString) (ht : isWord token) :
    parseScriptLoop (w ++ d :: rest) tokenList token =
      parseScriptLoop rest (tokenList ++ [Token.mk (token ++ w)]) [] := by
  induction w generalizing token with
  | nil =>
    have hd1 : d = ' ' ∨ d = '\n' := hd
    simp only [List.nil_append, parseScriptLoop, hd1, if_true, List.append_nil]
    rw [cleanToken_eq ht hd]
  | cons c w ih =>
    have hc : ¬ (c = ' ' ∨ c = '\n') := hw c (List.mem_cons_self _ _)
    have hw1 : isWord w := fun x hx => hw x (List.mem_cons_of_mem _ hx)
    have ht1 : isWord (token ++ [c]) :=
      isWord_append ht (fun x hx => by
        rw [List.mem_singleton] at hx; subst hx; exact hc)
    simp only [List.cons_append, parseScriptLoop, hc, if_false]
    show parseScriptLoop (w ++ d :: rest) tokenList (token ++ [c]) = _
    rw [ih hw1 (token ++ [c]) ht1]
    simp

/-- Tokens already emitted stay in front of everything emitted later. -/
theorem parseScriptLoop_acc (s : List Char) (tokenList : List Token) (token : GoString) :
    parseScriptLoop s tokenList token = tokenList ++ parseScriptLoop s [] token := by
  induction s generalizing tokenList token with
  | nil => simp [parseScriptLoop]
  | cons c s ih =>
    simp only [parseScriptLoop]
    split
    · rw [ih, ih ([] ++ _)]; simp
    · rw [ih]

/-- Words that each end in a delimiter come out as the tokens, one per word. -/
theorem parseScriptLoop_joinWords (ws : List (GoString × Char))
    (h : ∀ p ∈ ws, isWord p.1 ∧ isDelimiter p.2) :
    parseScriptLoop (joinWords ws) [] [] = ws.map (fun p => Token.mk p.1) := by
  induction ws with
  | nil => rfl
  | cons p ws ih =>
    obtain ⟨w, d⟩ := p
    have hp := h (w, d) (List.mem_cons_self _ _)
    have hrest : ∀ p ∈ ws, isWord p.1 ∧ isDelimiter p.2 :=
      fun q hq => h q (List.mem_cons_of_mem _ hq)
    simp only [joinWords, List.map_cons]
    rw [parseScriptLoop_word w hp.1 d hp.2 _ _ [] (fun _ hx => by cases hx),
      parseScriptLoop_acc, ih hrest]
    simp


/-- A word with no delimiter after it emits nothing. -/
theorem parseScriptLoop_of_isWord (t : GoString) (ht : isWord t) (tokenList : List Token)
    (token : GoString) : parseScriptLoop t tokenList token = tokenList := by
  induction t generalizing token with
  | nil => rfl
  | cons c t ih =>
    have hc : ¬ (c = ' ' ∨ c = '\n') := ht c (List.mem_cons_self _ _)
    simp only [parseScriptLoop, hc, if_false]
    exact ih (fun x hx => ht x (List.mem_cons_of_mem _ hx)) _

/-- After a delimiter the buffer is empty, so the text that follows is read from a
fresh buffer. -/
theorem parseScriptLoop_after_delimiter (s : List Char) (d : Char) (hd : isDelimiter d)
    (t : List Char) (tokenList : List Token) (token : GoString) :
    parseScriptLoop (s ++ d :: t) tokenList token =
      parseScriptLoop t (parseScriptLoop (s ++ [d]) tokenList token) [] := by
  induction s generalizing tokenList token with
  | nil =>
    have hd1 : d = ' ' ∨ d = '\n' := hd
    simp only [List.nil_append, parseScriptLoop, hd1, if_true]
  | cons c s ih =>
    simp only [List.cons_append, parseScriptLoop]
    split
    · exact ih _ _
    · exact ih _ _

/-- Text after the last delimiter never becomes a token. -/
theorem parseScript_append_word (s t : GoString)
    (hs : s = [] ∨ ∃ d, isDelimiter d ∧ s.getLast? = some d) (ht : isWord t) :
    parseScript (s ++ t) = parseScript s := by
  unfold parseScript
  rcases hs with rfl | ⟨d, hd, hlast⟩
  · simpa using parseScriptLoop_of_isWord t ht [] []
  · obtain ⟨s1, rfl⟩ : ∃ s1, s = s1 ++ [d] := by
      have hne : s ≠ [] := by rintro rfl; simp at hlast
      refine ⟨s.dropLast, ?_⟩
      have h2 := List.dropLast_append_getLast? d (by simpa using hlast)
      exact h2.symm
    rw [List.append_assoc, List.singleton_append,
      parseScriptLoop_after_delimiter s1 d hd t, parseScriptLoop_of_isWord t ht]

/-- Claim C1. For words `w1..wn` without space or newline (empty words allowed) and
delimiters `d1..dn`, each a space or a newline, `parseScript` of the text
`w1 d1 ... wn dn` is exactly the token list `[w1, ..., wn]`, every word
verbatim. -/
theorem parseScript_joinWords (ws : List (GoString × Char))
    (h : ∀ p ∈ ws, isWord p.1 ∧ isDelimiter p.2) :
    parseScript (joinWords ws) = ws.map (fun p => Token.mk p.1) :=
  parseScriptLoop_joinWords ws h

/-- The script `"DECLARE x\nSET x 5\nPRINT x\n"` lexes to
`[DECLARE, x, SET, x, 5, PRINT, x]`. -/
theorem parseScript_joinWords_witness :
    parseScript "DECLARE x\nSET x 5\nPRINT x\n".toList =
      tokens ["DECLARE", "x", "SET", "x", "5", "PRINT", "x"] :=
  parseScript_joinWords
    [("DECLARE".toList, ' '), ("x".toList, '\n'), ("SET".toList, ' '), ("x".toList, ' '),
      ("5".toList, '\n'), ("PRINT".toList, ' '), ("x".toList, '\n')] (by decide)

/-- Claim C2. When the text `s` is empty or ends with a space or a newline and `t`
has no space and no newline, `parseScript (s ++ t) = parseScript s`: the buffer
left at the end of the text is never emitted. -/
theorem parseScript_drops_unterminated_word (s t : GoString)
    (hs : s = [] ∨ ∃ d, isDelimiter d ∧ s.getLast? = some d) (ht : isWord t) :
    parseScript (s ++ t) = parseScript s :=
  parseScript_append_word s t hs ht

/-- The script `"PRINT x"` lexes like `"PRINT "`, that is to `[PRINT]`: the word `x`
is lost. -/
theorem parseScript_drops_unterminated_word_witness :
    parseScript ("PRINT ".toList ++ "x".toList) = parseScript "PRINT ".toList ∧
      parseScript "PRINT x".toList = tokens ["PRINT"] :=
  ⟨parseScript_drops_unterminated_word "PRINT ".toList "x".toList
    (Or.inr ⟨' ', by decide, by decide⟩) (by decide), by decide⟩

/-! ## The analyser: proofs -/

theorem getElem?_shift (pre toks : List Token) (i : Nat) :
    (pre ++ toks)[pre.length + i]? = toks[i]? := by
  rw [List.getElem?_append_right (Nat.le_add_right _ _)]
  simp

theorem analyseLoop_shift (pre toks : List Token) (fuel cursor : Nat) (ops : List Operation) :
    analyseLoop (pre ++ toks) fuel (pre.length + cursor) ops = analyseLoop toks fuel cursor ops := by
  induction fuel generalizing cursor ops with
  | zero =>
    rw [analyseLoop, analyseLoop]
    simp
  | succ fuel ih =>
    rw [analyseLoop, analyseLoop]
    simp only [List.length_append, Nat.add_lt_add_iff_left, Nat.add_assoc, getElem?_shift, ih]

@[simp] theorem prependOps_nil (r : Except Failure (List Operation)) : prependOps [] r = r := by
  cases r <;> rfl

@[simp] theorem prependOps_prependOps (a b : List Operation) (r : Except Failure (List Operation)) :
    prependOps a (prependOps b r) = prependOps (a ++ b) r := by
  cases r <;> simp [prependOps]

theorem analyseLoop_acc (toks : List Token) (fuel cursor : Nat) (ops : List Operation) :
    analyseLoop toks fuel cursor ops = prependOps ops (analyseLoop toks fuel cursor []) := by
  induction fuel generalizing cursor ops with
  | zero =>
    rw [analyseLoop, analyseLoop]
    split <;> simp [prependOps]
  | succ fuel ih =>
    rw [analyseLoop, analyseLoop]
    simp only [List.nil_append]
    split
    · repeat' split
      all_goals first
        | rfl
        | exact ih _ _
        | (rw [ih, ih _ [_]]; simp)
    · simp [prependOps]

theorem analyseLoop_fuel (toks : List Token) (fuel1 fuel2 cursor : Nat) (ops : List Operation)
    (h1 : toks.length - cursor ≤ fuel1) (h2 : toks.length - cursor ≤ fuel2) :
    analyseLoop toks fuel1 cursor ops = analyseLoop toks fuel2 cursor ops := by
  induction fuel1 generalizing fuel2 cursor ops with
  | zero =>
    have : ¬ cursor < toks.length := by omega
    rw [analyseLoop.eq_def, analyseLoop.eq_def toks fuel2]
    simp [this]
  | succ fuel1 ih =>
    by_cases hc : cursor < toks.length
    · cases fuel2 with
      | zero => omega
      | succ fuel2 =>
        rw [analyseLoop, analyseLoop]
        simp only [hc, if_true]
        repeat' split
        all_goals first
          | rfl
          | (apply ih <;> omega)
    · rw [analyseLoop.eq_def, analyseLoop.eq_def toks fuel2]
      simp [hc]

theorem prependOps_eq_map (op : Operation) (r : Except Failure (List Operation)) :
    prependOps [op] r = Except.map (fun ops => op :: ops) r := by
  cases r <;> rfl

theorem analyse_after (pre rest : List Token) (ops : List Operation) (hpre : 0 < pre.length)
    (h : analyseLoop (pre ++ rest) (pre ++ rest).length 0 [] =
      analyseLoop (pre ++ rest) ((pre ++ rest).length - 1) (pre.length + 0) ops) :
    analyse (pre ++ rest) = prependOps ops (analyse rest) := by
  unfold analyse
  rw [h, analyseLoop_shift, analyseLoop_acc,
    analyseLoop_fuel rest _ rest.length 0 [] (by simp; omega) (by simp)]

theorem kw_ne :
    "SET".toList ≠ "DECLARE".toList ∧ "PRINT".toList ≠ "DECLARE".toList ∧
    "PRINT".toList ≠ "SET".toList ∧ "INCREMENT".toList ≠ "DECLARE".toList ∧
    "INCREMENT".toList ≠ "SET".toList ∧ "INCREMENT".toList ≠ "PRINT".toList ∧
    "DECREMENT".toList ≠ "DECLARE".toList ∧ "DECREMENT".toList ≠ "SET".toList ∧
    "DECREMENT".toList ≠ "PRINT".toList ∧ "DECREMENT".toList ≠ "INCREMENT".toList ∧
    "IF".toList ≠ "DECLARE".toList ∧ "IF".toList ≠ "SET".toList ∧
    "IF".toList ≠ "PRINT".toList ∧ "IF".toList ≠ "INCREMENT".toList ∧
    "IF".toList ≠ "DECREMENT".toList ∧ "ENDIF".toList ≠ "DECLARE".toList ∧
    "ENDIF".toList ≠ "SET".toList ∧ "ENDIF".toList ≠ "PRINT".toList ∧
    "ENDIF".toList ≠ "INCREMENT".toList ∧ "ENDIF".toList ≠ "DECREMENT".toList ∧
    "ENDIF".toList ≠ "IF".toList := by decide

theorem analyse_nil : analyse [] = .ok [] := rfl

theorem analyse_DECLARE (a1 : GoString) (rest : List Token) :
    analyse (Token.mk "DECLARE".toList :: Token.mk a1 :: rest) =
      Except.map (fun ops => Operation.DeclareOperation a1 :: ops) (analyse rest) := by
  rw [← prependOps_eq_map]
  refine analyse_after [_, _] rest _ (by simp) ?_
  simp only [List.cons_append, List.nil_append, List.length_cons]
  rw [analyseLoop]
  simp

theorem analyse_SET (a1 a2 : GoString) (rest : List Token) :
    analyse (Token.mk "SET".toList :: Token.mk a1 :: Token.mk a2 :: rest) =
      Except.map (fun ops => Operation.AssignmentOperation a1 a2 :: ops) (analyse rest) := by
  rw [← prependOps_eq_map]
  refine analyse_after [_, _, _] rest _ (by simp) ?_
  simp only [List.cons_append, List.nil_append, List.length_cons]
  rw [analyseLoop]
  simp [kw_ne]

theorem analyse_PRINT (a1 : GoString) (rest : List Token) :
    analyse (Token.mk "PRINT".toList :: Token.mk a1 :: rest) =
      Except.map (fun ops => Operation.PrintOperation a1 [] :: ops) (analyse rest) := by
  rw [← prependOps_eq_map]
  refine analyse_after [_, _] rest _ (by simp) ?_
  simp only [List.cons_append, List.nil_append, List.length_cons]
  rw [analyseLoop]
  simp [kw_ne]

theorem analyse_INCREMENT (a1 a2 : GoString) (rest : List Token) :
    analyse (Token.mk "INCREMENT".toList :: Token.mk a1 :: Token.mk a2 :: rest) =
      Except.map (fun ops => Operation.IncrementOperation a1 a2 :: ops) (analyse rest) := by
  rw [← prependOps_eq_map]
  refine analyse_after [_, _, _] rest _ (by simp) ?_
  simp only [List.cons_append, List.nil_append, List.length_cons]
  rw [analyseLoop]
  simp [kw_ne]

theorem analyse_DECREMENT (a1 a2 : GoString) (rest : List Token) :
    analyse (Token.mk "DECREMENT".toList :: Token.mk a1 :: Token.mk a2 :: rest) =
      Except.map (fun ops => Operation.DecrementOperation a1 a2 :: ops) (analyse rest) := by
  rw [← prependOps_eq_map]
  refine analyse_after [_, _, _] rest _ (by simp) ?_
  simp only [List.cons_append, List.nil_append, List.length_cons]
  rw [analyseLoop]
  simp [kw_ne]

theorem analyse_IF (a1 a2 a3 : GoString) (rest : List Token) :
    analyse (Token.mk "IF".toList :: Token.mk a1 :: Token.mk a2 :: Token.mk a3 :: rest) =
      Except.map (fun ops => Operation.BranchOperation a1 a2 a3 :: ops) (analyse rest) := by
  rw [← prependOps_eq_map]
  refine analyse_after [_, _, _, _] rest _ (by simp) ?_
  simp only [List.cons_append, List.nil_append, List.length_cons]
  rw [analyseLoop]
  simp [kw_ne]

theorem analyse_ENDIF (rest : List Token) :
    analyse (Token.mk "ENDIF".toList :: rest) =
      Except.map (fun ops => Operation.EndOfBranchOperation :: ops) (analyse rest) := by
  rw [← prependOps_eq_map]
  refine analyse_after [_] rest _ (by simp) ?_
  simp only [List.cons_append, List.nil_append, List.length_cons]
  rw [analyseLoop]
  simp [kw_ne]

theorem analyse_skip (t : Token) (ht : ¬ isKeyword t.Value) (rest : List Token) :
    analyse (t :: rest) = analyse rest := by
  have h := analyse_after [t] rest [] (by simp) (by
    simp only [List.cons_append, List.nil_append, List.length_cons]
    rw [analyseLoop]
    simp [isKeyword] at ht
    simp [ht])
  simpa using h

theorem analyse_no_keyword (toks : List Token) (h : ∀ t ∈ toks, ¬ isKeyword t.Value) :
    analyse toks = .ok [] := by
  induction toks with
  | nil => rfl
  | cons t toks ih =>
    rw [analyse_skip t (h t (List.mem_cons_self _ _))]
    exact ih (fun x hx => h x (List.mem_cons_of_mem _ hx))

/-- One iteration at a token that has all its operands moves the cursor past them. -/
theorem analyseLoop_step_ok (toks : List Token) (fuel cursor : Nat) (ops : List Operation)
    (t : Token) (ht : toks[cursor]? = some t) (hk : cursor + arity t.Value < toks.length) :
    ∃ newOps, analyseLoop toks (fuel + 1) cursor ops =
      analyseLoop toks fuel (cursor + arity t.Value + 1) (ops ++ newOps) := by
  have hc : cursor < toks.length := by omega
  rw [analyseLoop]
  simp only [hc, if_true, ht]
  unfold arity at hk ⊢
  split_ifs at hk ⊢ with h1 h2 h3 h4 h5 h6 h7
  · obtain ⟨a, ha⟩ : ∃ a, toks[cursor + 1]? = some a :=
      ⟨toks[cursor + 1], List.getElem?_eq_getElem hk⟩
    exact ⟨_, by simp only [ha]; rfl⟩
  · obtain ⟨a, ha⟩ : ∃ a, toks[cursor + 1]? = some a :=
      ⟨toks[cursor + 1], List.getElem?_eq_getElem (by omega)⟩
    obtain ⟨b, hb⟩ : ∃ a, toks[cursor + 2]? = some a :=
      ⟨toks[cursor + 2], List.getElem?_eq_getElem hk⟩
    exact ⟨_, by simp only [ha, hb]; rfl⟩
  · obtain ⟨a, ha⟩ : ∃ a, toks[cursor + 1]? = some a :=
      ⟨toks[cursor + 1], List.getElem?_eq_getElem hk⟩
    exact ⟨_, by simp only [ha]; rfl⟩
  · obtain ⟨a, ha⟩ : ∃ a, toks[cursor + 1]? = some a :=
      ⟨toks[cursor + 1], List.getElem?_eq_getElem (by omega)⟩
    obtain ⟨b, hb⟩ : ∃ a, toks[cursor + 2]? = some a :=
      ⟨toks[cursor + 2], List.getElem?_eq_getElem hk⟩
    exact ⟨_, by simp only [ha, hb]; rfl⟩
  · obtain ⟨a, ha⟩ : ∃ a, toks[cursor + 1]? = some a :=
      ⟨toks[cursor + 1], List.getElem?_eq_getElem (by omega)⟩
    obtain ⟨b, hb⟩ : ∃ a, toks[cursor + 2]? = some a :=
      ⟨toks[cursor + 2], List.getElem?_eq_getElem hk⟩
    exact ⟨_, by simp only [ha, hb]; rfl⟩
  · obtain ⟨a, ha⟩ : ∃ a, toks[cursor + 1]? = some a :=
      ⟨toks[cursor + 1], List.getElem?_eq_getElem (by omega)⟩
    obtain ⟨b, hb⟩ : ∃ a, toks[cursor + 2]? = some a :=
      ⟨toks[cursor + 2], List.getElem?_eq_getElem (by omega)⟩
    obtain ⟨c, hc3⟩ : ∃ a, toks[cursor + 3]? = some a :=
      ⟨toks[cursor + 3], List.getElem?_eq_getElem hk⟩
    exact ⟨_, by simp only [ha, hb, hc3]; rfl⟩
  · exact ⟨_, rfl⟩
  · exact ⟨[], by simp⟩

/-- One iteration at a keyword that lacks an operand is the out-of-range access. -/
theorem analyseLoop_step_fail (toks : List Token) (fuel cursor : Nat) (ops : List Operation)
    (t : Token) (ht : toks[cursor]? = some t) (hk : toks.length ≤ cursor + arity t.Value) :
    analyseLoop toks (fuel + 1) cursor ops = .error .indexOutOfRange := by
  have hc : cursor < toks.length := by
    by_contra hcon
    rw [List.getElem?_eq_none (by omega)] at ht
    cases ht
  rw [analyseLoop]
  simp only [hc, if_true, ht]
  unfold arity at hk
  split_ifs at hk ⊢ with h1 h2 h3 h4 h5 h6 h7
  · rw [List.getElem?_eq_none hk]
  · rw [List.getElem?_eq_none hk]
    split <;> simp_all
  · rw [List.getElem?_eq_none hk]
  · rw [List.getElem?_eq_none hk]
    split <;> simp_all
  · rw [List.getElem?_eq_none hk]
    split <;> simp_all
  · rw [List.getElem?_eq_none hk]
    split <;> simp_all
  · omega
  · omega


theorem not_lacks_of_length_le (toks : List Token) (cursor : Nat) (h : toks.length ≤ cursor) :
    ¬ ∃ q, CursorReaches toks cursor q ∧ LacksOperands toks q := by
  rintro ⟨q, hreach, t, ht, -⟩
  cases hreach with
  | here =>
    rw [List.getElem?_eq_none h] at ht
    cases ht
  | step t1 ht1 _ _ =>
    rw [List.getElem?_eq_none h] at ht1
    cases ht1

theorem lacks_step_iff (toks : List Token) (cursor : Nat) (t : Token)
    (ht : toks[cursor]? = some t) (hk : cursor + arity t.Value < toks.length) :
    (∃ q, CursorReaches toks cursor q ∧ LacksOperands toks q) ↔
      ∃ q, CursorReaches toks (cursor + arity t.Value + 1) q ∧ LacksOperands toks q := by
  constructor
  · rintro ⟨q, hreach, hl⟩
    cases hreach with
    | here =>
      obtain ⟨t1, ht1, hlt⟩ := hl
      rw [ht] at ht1
      cases ht1
      omega
    | step t1 ht1 _ hrest =>
      rw [ht] at ht1
      cases ht1
      exact ⟨q, hrest, hl⟩
  · rintro ⟨q, hreach, hl⟩
    exact ⟨q, CursorReaches.step t ht hk hreach, hl⟩

theorem analyseLoop_outcome (toks : List Token) (fuel cursor : Nat) (ops : List Operation)
    (hfuel : toks.length - cursor ≤ fuel) :
    (analyseLoop toks fuel cursor ops = .error .indexOutOfRange ↔
        ∃ q, CursorReaches toks cursor q ∧ LacksOperands toks q) ∧
      (analyseLoop toks fuel cursor ops = .error .indexOutOfRange ∨
        ∃ result, analyseLoop toks fuel cursor ops = .ok result) := by
  induction fuel generalizing cursor ops with
  | zero =>
    have hle : toks.length ≤ cursor := by omega
    have hov : ¬ cursor < toks.length := by omega
    have hval : analyseLoop toks 0 cursor ops = .ok ops := by
      rw [analyseLoop.eq_def]; simp [hov]
    rw [hval]
    refine ⟨⟨(fun h => by cases h), fun h => absurd h (not_lacks_of_length_le toks cursor hle)⟩,
      Or.inr ⟨ops, rfl⟩⟩
  | succ fuel ih =>
    by_cases hc : cursor < toks.length
    · obtain ⟨t, ht⟩ : ∃ t, toks[cursor]? = some t :=
        ⟨toks[cursor], List.getElem?_eq_getElem hc⟩
      by_cases hk : cursor + arity t.Value < toks.length
      · obtain ⟨newOps, hstep⟩ := analyseLoop_step_ok toks fuel cursor ops t ht hk
        rw [hstep, lacks_step_iff toks cursor t ht hk]
        exact ih _ _ (by omega)
      · rw [analyseLoop_step_fail toks fuel cursor ops t ht (by omega)]
        refine ⟨⟨fun _ => ⟨cursor, CursorReaches.here cursor, t, ht, by omega⟩, fun _ => rfl⟩,
          Or.inl rfl⟩
    · have hle : toks.length ≤ cursor := by omega
      have hval : analyseLoop toks (fuel + 1) cursor ops = .ok ops := by
        rw [analyseLoop.eq_def]; simp [hc]
      rw [hval]
      refine ⟨⟨(fun h => by cases h), fun h => absurd h (not_lacks_of_length_le toks cursor hle)⟩,
        Or.inr ⟨ops, rfl⟩⟩

/-- Claim C3. `analyse` follows the dispatch table: a keyword followed by as many
operand tokens as its arity, of any value, then any token list `rest`, analyses
to the operation of the keyword built from the operands, followed by the
analysis of `rest` (a failure of `rest` is the failure of the whole); the operands
are never dispatched on. -/
theorem analyse_dispatch_table (a1 a2 a3 : GoString) (rest : List Token) :
    analyse (Token.mk "DECLARE".toList :: Token.mk a1 :: rest) =
        Except.map (fun ops => Operation.DeclareOperation a1 :: ops) (analyse rest) ∧
    analyse (Token.mk "SET".toList :: Token.mk a1 :: Token.mk a2 :: rest) =
        Except.map (fun ops => Operation.AssignmentOperation a1 a2 :: ops) (analyse rest) ∧
    analyse (Token.mk "PRINT".toList :: Token.mk a1 :: rest) =
        Except.map (fun ops => Operation.PrintOperation a1 [] :: ops) (analyse rest) ∧
    analyse (Token.mk "INCREMENT".toList :: Token.mk a1 :: Token.mk a2 :: rest) =
        Except.map (fun ops => Operation.IncrementOperation a1 a2 :: ops) (analyse rest) ∧
    analyse (Token.mk "DECREMENT".toList :: Token.mk a1 :: Token.mk a2 :: rest) =
        Except.map (fun ops => Operation.DecrementOperation a1 a2 :: ops) (analyse rest) ∧
    analyse (Token.mk "IF".toList :: Token.mk a1 :: Token.mk a2 :: Token.mk a3 :: rest) =
        Except.map (fun ops => Operation.BranchOperation a1 a2 a3 :: ops) (analyse rest) ∧
    analyse (Token.mk "ENDIF".toList :: rest) =
        Except.map (fun ops => Operation.EndOfBranchOperation :: ops) (analyse rest) :=
  ⟨analyse_DECLARE a1 rest, analyse_SET a1 a2 rest, analyse_PRINT a1 rest,
    analyse_INCREMENT a1 a2 rest, analyse_DECREMENT a1 a2 rest, analyse_IF a1 a2 a3 rest,
    analyse_ENDIF rest⟩

/-- Claim C4. A token whose value is none of the seven keywords is skipped alone at
a dispatch position: `analyse (t :: rest) = analyse rest`; and a token list
without any keyword analyses to the empty operation list. -/
theorem analyse_skips_unrecognized (t : Token) (rest : List Token) (ht : ¬ isKeyword t.Value) :
    analyse (t :: rest) = analyse rest ∧
      ∀ tokenList : List Token, (∀ u ∈ tokenList, ¬ isKeyword u.Value) →
        analyse tokenList = .ok [] :=
  ⟨analyse_skip t ht rest, analyse_no_keyword⟩

/-- The lower-case token `declare` is no keyword: `[declare, PRINT, x]` analyses
like `[PRINT, x]`, and `[declare, x, 5]` to no operation at all. -/
theorem analyse_skips_unrecognized_witness :
    analyse (tokens ["declare", "PRINT", "x"]) = analyse (tokens ["PRINT", "x"]) ∧
      analyse (tokens ["declare", "x", "5"]) = .ok [] :=
  ⟨(analyse_skips_unrecognized (Token.mk "declare".toList) (tokens ["PRINT", "x"])
      (by decide)).1,
    (analyse_skips_unrecognized (Token.mk "declare".toList) [] (by decide)).2
      (tokens ["declare", "x", "5"]) (by decide)⟩

/-- Claim C5. `analyse` fails with the out-of-range token access exactly when, at
some position at which the cursor dispatches, the token is a keyword with fewer
tokens after it than its arity; on every other token list it returns an
operation list. -/
theorem analyse_fails_iff_lacks_operands (tokenList : List Token) :
    (analyse tokenList = .error .indexOutOfRange ↔
        ∃ q, DispatchesAt tokenList q ∧ LacksOperands tokenList q) ∧
      ((¬ ∃ q, DispatchesAt tokenList q ∧ LacksOperands tokenList q) →
        ∃ operationList, analyse tokenList = .ok operationList) := by
  have h := analyseLoop_outcome tokenList tokenList.length 0 [] (by omega)
  refine ⟨h.1, fun hno => ?_⟩
  rcases h.2 with hfail | hok
  · exact absurd (h.1.1 hfail) hno
  · exact hok

/-- The bound on the iterations of `analyse` is never what stops it. -/
theorem analyse_never_outOfFuel (tokenList : List Token) :
    analyse tokenList ≠ .error .outOfFuel := by
  intro hcon
  rcases (analyseLoop_outcome tokenList tokenList.length 0 [] (by omega)).2 with h | ⟨r, h⟩
  · unfold analyse at hcon; rw [h] at hcon; cases hcon
  · unfold analyse at hcon; rw [h] at hcon; cases hcon

/-! ## Reading and writing decimal numbers: proofs -/

theorem decimalValue_cons (c : Char) (ds : List Char) (n : Nat) :
    decimalValue (c :: ds) n = decimalValue ds (n * 10 + (c.toNat - 48)) := rfl

theorem decimalValue_append (ds es : List Char) (n : Nat) :
    decimalValue (ds ++ es) n = decimalValue es (decimalValue ds n) := by
  simp [decimalValue]

theorem le_decimalValue (ds : List Char) (n : Nat) : n ≤ decimalValue ds n := by
  induction ds generalizing n with
  | nil => exact Nat.le_refl _
  | cons c ds ih =>
    rw [decimalValue_cons]
    exact Nat.le_trans (by omega) (ih _)

theorem digit_bounds {c : Char} (h : isDecimalDigit c = true) : c.toNat - 48 ≤ 9 := by
  simp only [isDecimalDigit, decide_eq_true_eq] at h
  omega

theorem decimalValue_lt (ds : List Char) (hds : ∀ c ∈ ds, isDecimalDigit c = true) (n : Nat) :
    decimalValue ds n < (n + 1) * 10 ^ ds.length := by
  induction ds generalizing n with
  | nil => simp [decimalValue]
  | cons c ds ih =>
    rw [decimalValue_cons]
    have hd := digit_bounds (hds c (List.mem_cons_self _ _))
    have h1 := ih (fun x hx => hds x (List.mem_cons_of_mem _ hx)) (n * 10 + (c.toNat - 48))
    have h2 : (n * 10 + (c.toNat - 48) + 1) * 10 ^ ds.length ≤ (n + 1) * 10 ^ (c :: ds).length := by
      rw [List.length_cons, pow_succ]
      calc (n * 10 + (c.toNat - 48) + 1) * 10 ^ ds.length
          ≤ ((n + 1) * 10) * 10 ^ ds.length := Nat.mul_le_mul_right _ (by omega)
        _ = (n + 1) * (10 ^ ds.length * 10) := by ring
    omega

theorem ParseUintLoop_digits (ds : List Char) (hds : ∀ c ∈ ds, isDecimalDigit c = true)
    (n : Nat) (h : decimalValue ds n < 2 ^ 64) :
    ParseUintLoop ds n = (decimalValue ds n, none) := by
  induction ds generalizing n with
  | nil => rfl
  | cons c ds ih =>
    have hc := hds c (List.mem_cons_self _ _)
    have hd := digit_bounds hc
    rw [decimalValue_cons] at h ⊢
    have hle := le_decimalValue ds (n * 10 + (c.toNat - 48))
    have h1 : ¬ n ≥ (2 ^ 64 - 1) / 10 + 1 := by norm_num; omega
    have h2 : (n * 10) % 2 ^ 64 = n * 10 := Nat.mod_eq_of_lt (by omega)
    have h3 : (n * 10 + (c.toNat - 48)) % 2 ^ 64 = n * 10 + (c.toNat - 48) :=
      Nat.mod_eq_of_lt (by omega)
    have h4 : ¬ (n * 10 + (c.toNat - 48) < n * 10 ∨ n * 10 + (c.toNat - 48) > 2 ^ 64 - 1) := by
      omega
    simp only [ParseUintLoop, hc, if_true, h1, if_false, h2, h3, h4]
    exact ih (fun x hx => hds x (List.mem_cons_of_mem _ hx)) _ h

theorem wrapInt64_of_range {x : Int} (h1 : -(2 ^ 63) ≤ x) (h2 : x < 2 ^ 63) : wrapInt64 x = x := by
  unfold wrapInt64
  rw [Int.emod_eq_of_lt (by omega) (by omega)]
  omega

theorem AtoiFastLoop_digits (ds : List Char) (hds : ∀ c ∈ ds, isDecimalDigit c = true)
    (n : Nat) (h : (n + 1) * 10 ^ ds.length ≤ 2 ^ 63) :
    AtoiFastLoop ds (n : Int) = some ((decimalValue ds n : Nat) : Int) := by
  induction ds generalizing n with
  | nil => rfl
  | cons c ds ih =>
    have hc := hds c (List.mem_cons_self _ _)
    have hd := digit_bounds hc
    have hpos : 0 < 10 ^ ds.length := Nat.pow_pos (by norm_num)
    have h2 : (n * 10 + (c.toNat - 48) + 1) * 10 ^ ds.length ≤ 2 ^ 63 := by
      rw [List.length_cons, pow_succ] at h
      calc (n * 10 + (c.toNat - 48) + 1) * 10 ^ ds.length
          ≤ ((n + 1) * 10) * 10 ^ ds.length := Nat.mul_le_mul_right _ (by omega)
        _ = (n + 1) * (10 ^ ds.length * 10) := by ring
        _ ≤ 2 ^ 63 := h
    have h3 : n * 10 + (c.toNat - 48) < 2 ^ 63 := by
      have : (n * 10 + (c.toNat - 48) + 1) * 1 ≤ (n * 10 + (c.toNat - 48) + 1) * 10 ^ ds.length :=
        Nat.mul_le_mul_left _ hpos
      omega
    have h4 : wrapInt64 ((n : Int) * 10 + ((c.toNat - 48 : Nat) : Int)) =
        ((n * 10 + (c.toNat - 48) : Nat) : Int) := by
      rw [wrapInt64_of_range] <;> push_cast <;> omega
    simp only [AtoiFastLoop, hc, if_true, h4, decimalValue_cons]
    exact ih (fun x hx => hds x (List.mem_cons_of_mem _ hx)) _ h2

theorem digitChar_spec (d : Nat) (h : d < 10) :
    isDecimalDigit (digitChar d) = true ∧ (digitChar d).toNat - 48 = d ∧
      ¬ isDelimiter (digitChar d) ∧ digitChar d ≠ '-' ∧ digitChar d ≠ '+' := by
  interval_cases d <;> decide

theorem formatUintLoop_spec (fuel u : Nat) (buf : List Char) (h : u ≤ fuel) :
    ∃ ds, formatUintLoop fuel u buf = ds ++ buf ∧ ds ≠ [] ∧
      (∀ c ∈ ds, isDecimalDigit c = true) ∧ ∀ n, decimalValue ds n = n * 10 ^ ds.length + u := by
  induction fuel generalizing u buf with
  | zero =>
    obtain rfl : u = 0 := by omega
    refine ⟨[digitChar 0], rfl, by simp, ?_, ?_⟩
    · intro c hc
      rw [List.mem_singleton] at hc
      subst hc
      exact (digitChar_spec 0 (by norm_num)).1
    · intro n
      simp [decimalValue, (digitChar_spec 0 (by norm_num)).2.1]
  | succ fuel ih =>
    by_cases hu : u ≥ 10
    · obtain ⟨ds, hds, hne, hdig, hval⟩ :=
        ih (u / 10) (digitChar (u % 10) :: buf) (by omega)
      have hm := digitChar_spec (u % 10) (Nat.mod_lt _ (by norm_num))
      refine ⟨ds ++ [digitChar (u % 10)], ?_, by simp, ?_, ?_⟩
      · simp only [formatUintLoop, hu, if_true, hds]
        simp
      · intro c hc
        rcases List.mem_append.1 hc with h1 | h1
        · exact hdig c h1
        · rw [List.mem_singleton] at h1
          subst h1
          exact hm.1
      · intro n
        rw [decimalValue_append, hval, decimalValue_cons]
        simp only [decimalValue, List.foldl_nil, hm.2.1, List.length_append, List.length_singleton,
          pow_succ]
        have := Nat.div_add_mod u 10
        nlinarith [this]
    · have hm := digitChar_spec u (by omega)
      refine ⟨[digitChar u], ?_, by simp, ?_, ?_⟩
      · simp [formatUintLoop, hu]
      · intro c hc
        rw [List.mem_singleton] at hc
        subst hc
        exact hm.1
      · intro n
        simp [decimalValue, hm.2.1]


theorem formatUint_spec (u : Nat) :
    ∃ ds, formatUint u = ds ∧ ds ≠ [] ∧
      (∀ c ∈ ds, isDecimalDigit c = true) ∧ decimalValue ds 0 = u := by
  obtain ⟨ds, h1, h2, h3, h4⟩ := formatUintLoop_spec u u [] (Nat.le_refl _)
  exact ⟨ds, by simpa [formatUint] using h1, h2, h3, by simpa using h4 0⟩

theorem not_sign_of_digit {c : Char} (h : isDecimalDigit c = true) : c ≠ '-' ∧ c ≠ '+' := by
  constructor <;> rintro rfl <;> revert h <;> decide

theorem ten_pow_le (k : Nat) (h : k ≤ 18) : 10 ^ k ≤ 2 ^ 63 :=
  Nat.le_trans (Nat.pow_le_pow_right (by norm_num) h) (by norm_num)

theorem Atoi_digits (ds : List Char) (hne : ds ≠ []) (hds : ∀ c ∈ ds, isDecimalDigit c = true)
    (h : decimalValue ds 0 < 2 ^ 63) : Atoi ds = (((decimalValue ds 0 : Nat) : Int), none) := by
  obtain ⟨c, rest, rfl⟩ := List.exists_cons_of_ne_nil hne
  have hc := not_sign_of_digit (hds c (List.mem_cons_self _ _))
  unfold Atoi
  split_ifs with hlen
  · have hfast := AtoiFastLoop_digits (c :: rest) hds 0 (by
      have := ten_pow_le (c :: rest).length (by omega)
      omega)
    simp only [hc.1, hc.2, or_self, if_false]
    rw [if_neg (by simp)]
    simp only [Nat.cast_zero] at hfast
    rw [hfast]
  · unfold ParseInt
    simp only [hc.1, hc.2, or_self, if_false, decide_False]
    unfold ParseUint
    rw [ParseUintLoop_digits (c :: rest) hds 0 (by omega)]
    simp
    omega

theorem Atoi_neg_digits (ds : List Char) (hne : ds ≠ []) (hds : ∀ c ∈ ds, isDecimalDigit c = true)
    (h : decimalValue ds 0 ≤ 2 ^ 63) :
    Atoi ('-' :: ds) = (-((decimalValue ds 0 : Nat) : Int), none) := by
  unfold Atoi
  split_ifs with hlen
  · have hfast := AtoiFastLoop_digits ds hds 0 (by
      have := ten_pow_le ds.length (by simp at hlen; omega)
      omega)
    have hlt := decimalValue_lt ds hds 0
    have hp := ten_pow_le ds.length (by simp at hlen; omega)
    simp only [true_or, if_true]
    rw [if_neg (by
      have : 0 < ds.length := List.length_pos.2 hne
      omega)]
    simp only [Nat.cast_zero] at hfast
    rw [hfast]
    simp only []
    rw [wrapInt64_of_range] <;> omega
  · obtain ⟨c, rest, rfl⟩ := List.exists_cons_of_ne_nil hne
    unfold ParseInt
    simp only [or_true, if_true, decide_True]
    unfold ParseUint
    rw [ParseUintLoop_digits (c :: rest) hds 0 (by omega)]
    simp
    omega

theorem Atoi_Sprint (a : Int) (h1 : -(2 ^ 63) ≤ a) (h2 : a < 2 ^ 63) :
    Atoi (Sprint a) = (a, none) := by
  obtain ⟨ds, hfmt, hne, hds, hval⟩ := formatUint_spec a.natAbs
  unfold Sprint
  rw [hfmt]
  split_ifs with hneg
  · rw [Atoi_neg_digits ds hne hds (by omega), hval]
    congr 1
    omega
  · rw [Atoi_digits ds hne hds (by omega), hval]
    congr 1
    omega

/-! ## The executor: proofs -/

theorem executeLoop_cons (op : Operation) (ops : List Operation) (st : ExecState) :
    executeLoop (op :: ops) st = executeLoop ops (executeOp st op) := rfl

theorem executeLoop_append (ops1 ops2 : List Operation) (st : ExecState) :
    executeLoop (ops1 ++ ops2) st = executeLoop ops2 (executeLoop ops1 st) := by
  simp [executeLoop]

/-- While the flag is true an operation other than `EndOfBranchOperation` changes
nothing. -/
theorem executeOp_skipping (m : Memory) (out : List GoString) (op : Operation)
    (h : op ≠ .EndOfBranchOperation) :
    executeOp (ExecState.mk m true out) op = ExecState.mk m true out := by
  cases op <;> first | rfl | exact absurd rfl h

theorem executeLoop_skipping (m : Memory) (out : List GoString) (body : List Operation)
    (h : ∀ op ∈ body, op ≠ .EndOfBranchOperation) :
    executeLoop body (ExecState.mk m true out) = ExecState.mk m true out := by
  induction body with
  | nil => rfl
  | cons op body ih =>
    rw [executeLoop_cons, executeOp_skipping m out op (h op (List.mem_cons_self _ _))]
    exact ih (fun x hx => h x (List.mem_cons_of_mem _ hx))

/-- Claim C6. A false conditional suppresses its body: from memory `m` with the
flag false, running a `BranchOperation` whose condition is false, a body without
`EndOfBranchOperation`, the `EndOfBranchOperation` and then `rest` ends in the
same state (output, memory and flag) as running `rest` alone from memory `m`
with the flag false. -/
theorem false_branch_suppresses_body (m : Memory) (out : List GoString)
    (compareTarget comparisonOperator comparison : GoString) (body rest : List Operation)
    (hfalse : branchMatch (Atoi compareTarget).1 comparisonOperator (Atoi comparison).1 = false)
    (hbody : ∀ op ∈ body, op ≠ .EndOfBranchOperation) :
    executeLoop
        (.BranchOperation compareTarget comparisonOperator comparison ::
          (body ++ .EndOfBranchOperation :: rest))
        (ExecState.mk m false out) =
      executeLoop rest (ExecState.mk m false out) := by
  have h1 : executeOp (ExecState.mk m false out)
      (.BranchOperation compareTarget comparisonOperator comparison) =
      ExecState.mk m true out := by
    simp [executeOp, hfalse]
  rw [executeLoop_cons, h1, executeLoop_append, executeLoop_skipping m out body hbody,
    executeLoop_cons]
  rfl

/-- The script `IF 5 > 10; PRINT x; ENDIF` runs like the empty script and prints
nothing. -/
theorem false_branch_suppresses_body_witness :
    executeLoop
        [.BranchOperation "5".toList ">".toList "10".toList, .PrintOperation "x".toList [],
          .EndOfBranchOperation]
        (ExecState.mk Memory.empty false []) =
      executeLoop [] (ExecState.mk Memory.empty false []) ∧
    execute
        [.BranchOperation "5".toList ">".toList "10".toList, .PrintOperation "x".toList [],
          .EndOfBranchOperation] = [] :=
  ⟨false_branch_suppresses_body Memory.empty [] "5".toList ">".toList "10".toList
      [.PrintOperation "x".toList []] [] (by decide) (by decide), by decide⟩

/-- Claim C7. A `BranchOperation` executed with the flag false, `t` and `c` being the
integer readings of its target and comparison: the flag becomes true exactly
when the operator is `<` and not `t < c`, or `>` and not `t > c`, or `==` and
`t ≠ c`, or `!=` and `t = c`; with any other operator the flag stays false;
memory and output do not change.  `IF 5 < 10` and `IF 1 ? 2` leave the flag
false. -/
theorem branch_sets_skip_flag (m : Memory) (out : List GoString)
    (compareTarget comparisonOperator comparison : GoString) :
    ((executeOp (ExecState.mk m false out)
        (.BranchOperation compareTarget comparisonOperator comparison)).shouldSkipProcessing
        = true ↔
      (comparisonOperator = "<".toList ∧ ¬ (Atoi compareTarget).1 < (Atoi comparison).1) ∨
      (comparisonOperator = ">".toList ∧ ¬ (Atoi compareTarget).1 > (Atoi comparison).1) ∨
      (comparisonOperator = "==".toList ∧ (Atoi compareTarget).1 ≠ (Atoi comparison).1) ∨
      (comparisonOperator = "!=".toList ∧ (Atoi compareTarget).1 = (Atoi comparison).1)) ∧
    (executeOp (ExecState.mk m false out)
        (.BranchOperation compareTarget comparisonOperator comparison)).mem = m ∧
    (executeOp (ExecState.mk m false out)
        (.BranchOperation compareTarget comparisonOperator comparison)).output = out ∧
    (executeOp (ExecState.mk m false out)
        (.BranchOperation "5".toList "<".toList "10".toList)).shouldSkipProcessing = false ∧
    (executeOp (ExecState.mk m false out)
        (.BranchOperation "1".toList "?".toList "2".toList)).shouldSkipProcessing = false := by
  have hne : "<".toList ≠ ">".toList ∧ "<".toList ≠ "==".toList ∧ "<".toList ≠ "!=".toList ∧
      ">".toList ≠ "==".toList ∧ ">".toList ≠ "!=".toList ∧ "==".toList ≠ "!=".toList := by
    decide
  obtain ⟨n1, n2, n3, n4, n5, n6⟩ := hne
  refine ⟨?_, ?_, ?_, ?_, ?_⟩
  · simp only [executeOp, Bool.false_eq_true, if_false]
    by_cases h1 : comparisonOperator = "<".toList
    · subst h1
      by_cases hlt : (Atoi compareTarget).1 < (Atoi comparison).1 <;>
        simp [branchMatch, hlt, n1, n2, n3]
    · by_cases h2 : comparisonOperator = ">".toList
      · subst h2
        by_cases hlt : (Atoi compareTarget).1 > (Atoi comparison).1 <;>
          simp [branchMatch, hlt, n1.symm, n4, n5, h1]
      · by_cases h3 : comparisonOperator = "==".toList
        · subst h3
          by_cases hlt : (Atoi compareTarget).1 = (Atoi comparison).1 <;>
            simp [branchMatch, hlt, n2.symm, n4.symm, n6, h1, h2]
        · by_cases h4 : comparisonOperator = "!=".toList
          · subst h4
            by_cases hlt : (Atoi compareTarget).1 = (Atoi comparison).1 <;>
              simp [branchMatch, hlt, n3.symm, n5.symm, n6.symm, h1, h2, h3]
          · simp at h1 h2 h3 h4
            simp [branchMatch, h1, h2, h3, h4]
  · simp only [executeOp, Bool.false_eq_true, if_false]
    split <;> rfl
  · simp only [executeOp, Bool.false_eq_true, if_false]
    split <;> rfl
  · rfl
  · rfl


/-- The output after one operation: the output before, and the line the operation
prints, if any. -/
theorem executeOp_output (st : ExecState) (op : Operation) :
    (executeOp st op).output = st.output ++ (printedLine st op).toList := by
  cases op with
  | PrintOperation variableName variableValue =>
    simp only [executeOp, printedLine, Memory.read]
    split
    · simp
    · cases st.mem variableName <;> simp
  | BranchOperation compareTarget comparisonOperator comparison =>
    simp only [executeOp, printedLine]
    split
    · simp
    · split <;> simp
  | EndOfBranchOperation =>
    simp only [executeOp, printedLine]
    split <;> simp
  | DeclareOperation variableName =>
    simp only [executeOp, printedLine]
    split <;> simp
  | AssignmentOperation variableName variableValue =>
    simp only [executeOp, printedLine]
    split <;> simp
  | IncrementOperation variableName incrementValue =>
    simp only [executeOp, printedLine]
    split <;> simp
  | DecrementOperation variableName decrementValue =>
    simp only [executeOp, printedLine]
    split <;> simp

theorem printedLines_cons (op : Operation) (ops : List Operation) (st : ExecState) :
    printedLines (op :: ops) st =
      (printedLine st op).toList ++ printedLines ops (executeOp st op) := by
  simp only [printedLines, statesBefore, List.zip_cons_cons, List.filterMap_cons]
  cases printedLine st op <;> simp

theorem executeLoop_output (ops : List Operation) (st : ExecState) :
    (executeLoop ops st).output = st.output ++ printedLines ops st := by
  induction ops generalizing st with
  | nil => simp [executeLoop, printedLines, statesBefore]
  | cons op ops ih =>
    rw [executeLoop_cons, ih, executeOp_output, printedLines_cons, List.append_assoc]

theorem printedLines_length_le (ops : List Operation) (st : ExecState) :
    (printedLines ops st).length ≤ ops.countP isPrint := by
  induction ops generalizing st with
  | nil => simp [printedLines, statesBefore]
  | cons op ops ih =>
    rw [printedLines_cons, List.length_append, List.countP_cons]
    have h1 := ih (executeOp st op)
    have h2 : (printedLine st op).toList.length ≤ if isPrint op = true then 1 else 0 := by
      cases op with
      | PrintOperation variableName variableValue =>
        simp only [printedLine, isPrint, if_true]
        split
        · simp
        · cases st.mem variableName <;> simp
      | _ => simp [printedLine, isPrint]
    omega

theorem not_delimiter_of_digit {c : Char} (h : isDecimalDigit c = true) : ¬ isDelimiter c := by
  rintro (rfl | rfl) <;> revert h <;> decide

theorem isWord_Sprint (a : Int) : isWord (Sprint a) := by
  obtain ⟨ds, hfmt, -, hds, -⟩ := formatUint_spec a.natAbs
  unfold Sprint
  rw [hfmt]
  split_ifs
  · intro c hc
    rcases List.mem_cons.1 hc with rfl | hc
    · decide
    · exact not_delimiter_of_digit (hds c hc)
  · exact fun c hc => not_delimiter_of_digit (hds c hc)

theorem Memory.read_write_same (m : Memory) (k v : GoString) : (m.write k v).read k = v := by
  simp [Memory.read, Memory.write]

theorem isWord_literals :
    isWord "SET".toList ∧ isWord "INCREMENT".toList ∧ isWord "DECREMENT".toList ∧
      isWord "PRINT".toList ∧ isDelimiter ' ' ∧ isDelimiter '\n' := by decide

/-- The tokens of a three-line script that sets a variable, changes it with the
given keyword and prints it. -/
theorem parseScript_set_change_print (keyword : GoString) (hk : isWord keyword) (n x y : GoString)
    (hn : isWord n) (hx : isWord x) (hy : isWord y) :
    parseScript ("SET ".toList ++ n ++ " ".toList ++ x ++ "\n".toList ++ keyword ++
        " ".toList ++ n ++ " ".toList ++ y ++ "\nPRINT ".toList ++ n ++ "\n".toList) =
      [Token.mk "SET".toList, Token.mk n, Token.mk x, Token.mk keyword, Token.mk n, Token.mk y,
        Token.mk "PRINT".toList, Token.mk n] := by
  obtain ⟨w1, -, -, w4, d1, d2⟩ := isWord_literals
  have h := parseScriptLoop_joinWords
    [("SET".toList, ' '), (n, ' '), (x, '\n'), (keyword, ' '), (n, ' '), (y, '\n'),
      ("PRINT".toList, ' '), (n, '\n')] (by
        intro p hp
        simp only [List.mem_cons, List.mem_singleton, List.not_mem_nil, or_false] at hp
        rcases hp with rfl | rfl | rfl | rfl | rfl | rfl | rfl | rfl <;>
          first
          | exact ⟨w1, d1⟩
          | exact ⟨hn, d1⟩
          | exact ⟨hx, d2⟩
          | exact ⟨hk, d1⟩
          | exact ⟨hy, d2⟩
          | exact ⟨w4, d1⟩
          | exact ⟨hn, d2⟩)
  unfold parseScript
  simp only [joinWords, List.map_cons, List.map_nil] at h
  rw [← h]
  congr 1
  simp


/-- Claim C9. End to end, for a variable name `n` without space or newline and
integers `a`, `b` with `a`, `b`, `a + b` and `a - b` in the signed 64-bit range,
written in decimal: the script `SET n a; INCREMENT n b; PRINT n` prints exactly
the one line `a + b` in decimal, and `SET n a; DECREMENT n b; PRINT n` prints
exactly the one line `a - b`. -/
theorem run_set_increment_decrement_print (n : GoString) (a b : Int) (hn : isWord n)
    (ha : -(2 ^ 63) ≤ a ∧ a < 2 ^ 63) (hb : -(2 ^ 63) ≤ b ∧ b < 2 ^ 63)
    (hadd : -(2 ^ 63) ≤ a + b ∧ a + b < 2 ^ 63) (hsub : -(2 ^ 63) ≤ a - b ∧ a - b < 2 ^ 63) :
    run ("SET ".toList ++ n ++ " ".toList ++ Sprint a ++ "\n".toList ++ "INCREMENT".toList ++
        " ".toList ++ n ++ " ".toList ++ Sprint b ++ "\nPRINT ".toList ++ n ++ "\n".toList) =
      .ok [Sprint (a + b)] ∧
    run ("SET ".toList ++ n ++ " ".toList ++ Sprint a ++ "\n".toList ++ "DECREMENT".toList ++
        " ".toList ++ n ++ " ".toList ++ Sprint b ++ "\nPRINT ".toList ++ n ++ "\n".toList) =
      .ok [Sprint (a - b)] := by
  obtain ⟨-, w2, w3, -, -, -⟩ := isWord_literals
  have hA := Atoi_Sprint a ha.1 ha.2
  have hB := Atoi_Sprint b hb.1 hb.2
  constructor
  · unfold run
    rw [parseScript_set_change_print _ w2 n _ _ hn (isWord_Sprint a) (isWord_Sprint b),
      analyse_SET, analyse_INCREMENT, analyse_PRINT, analyse_nil]
    simp only [Except.map, execute, executeLoop, List.foldl_cons, List.foldl_nil, executeOp,
      ExecState.initial, Bool.false_eq_true, if_false, Memory.read_write_same, hA, hB,
      wrapInt64_of_range hadd.1 hadd.2, List.nil_append]
  · unfold run
    rw [parseScript_set_change_print _ w3 n _ _ hn (isWord_Sprint a) (isWord_Sprint b),
      analyse_SET, analyse_DECREMENT, analyse_PRINT, analyse_nil]
    simp only [Except.map, execute, executeLoop, List.foldl_cons, List.foldl_nil, executeOp,
      ExecState.initial, Bool.false_eq_true, if_false, Memory.read_write_same, hA, hB,
      wrapInt64_of_range hsub.1 hsub.2, List.nil_append]

/-- The script `SET x 5; INCREMENT x 3; PRINT x` prints `8`, and
`SET x 10; DECREMENT x 4; PRINT x` prints `6`. -/
theorem run_set_increment_decrement_print_witness :
    run "SET x 5\nINCREMENT x 3\nPRINT x\n".toList = .ok ["8".toList] ∧
      run "SET x 10\nDECREMENT x 4\nPRINT x\n".toList = .ok ["6".toList] :=
  ⟨(run_set_increment_decrement_print "x".toList 5 3 (by decide) (by decide) (by decide)
      (by decide) (by decide)).1,
    (run_set_increment_decrement_print "x".toList 10 4 (by decide) (by decide) (by decide)
      (by decide) (by decide)).2⟩


/-- What `Atoi` returns: a value without error, or 0 with a syntax error, or one of
the two bounds of the 64-bit range with a range error. -/
theorem Atoi_cases (s : GoString) :
    (Atoi s).2 = none ∨ ((Atoi s).2 = some .ErrSyntax ∧ (Atoi s).1 = 0) ∨
      ((Atoi s).2 = some .ErrRange ∧ ((Atoi s).1 = 2 ^ 63 - 1 ∨ (Atoi s).1 = -(2 ^ 63))) := by
  unfold Atoi
  split_ifs with hlen
  · cases s with
    | nil => simp
    | cons c rest =>
      simp only []
      split_ifs <;> (try split) <;> simp
  · unfold ParseInt
    cases s with
    | nil => simp
    | cons c rest =>
      simp only []
      split
      · simp
      · split_ifs <;> simp

/-! ## Sequences of changes of one variable: proofs -/

theorem Memory.write_write (m : Memory) (k v w : GoString) :
    (m.write k v).write k w = m.write k w := by
  funext k1
  simp only [Memory.write]
  split <;> rfl

theorem executeOp_change (m : Memory) (out : List GoString) (n : GoString) (change : Bool × Int)
    (s0 : Int) (hs0 : (Atoi (m.read n)).1 = s0) (hd : InInt64 change.2)
    (hsum : InInt64 (s0 + signedSum [change])) :
    executeOp (ExecState.mk m false out) (changeOperation n change) =
      ExecState.mk (m.write n (Sprint (s0 + signedSum [change]))) false out := by
  obtain ⟨b, d⟩ := change
  have hA := Atoi_Sprint d hd.1 hd.2
  cases b
  · simp only [signedSum, Bool.false_eq_true, if_false, add_zero] at hsum ⊢
    simp only [changeOperation, Bool.false_eq_true, if_false, executeOp, hs0, hA]
    rw [wrapInt64_of_range (by have := hsum.1; omega) (by have := hsum.2; omega)]
    rfl
  · simp only [signedSum, if_true, add_zero] at hsum ⊢
    simp only [changeOperation, if_true, executeOp, Bool.false_eq_true, if_false, hs0, hA]
    rw [wrapInt64_of_range hsum.1 hsum.2]

theorem executeLoop_changes (n : GoString) (seq : List (Bool × Int)) (hne : seq ≠ [])
    (m : Memory) (out : List GoString) (s0 : Int) (hs0 : (Atoi (m.read n)).1 = s0)
    (hd : ∀ change ∈ seq, InInt64 change.2)
    (hsum : ∀ k, InInt64 (s0 + signedSum (seq.take k))) :
    executeLoop (seq.map (changeOperation n)) (ExecState.mk m false out) =
      ExecState.mk (m.write n (Sprint (s0 + signedSum seq))) false out := by
  induction seq generalizing m s0 with
  | nil => exact absurd rfl hne
  | cons change rest ih =>
    have h1 : InInt64 (s0 + signedSum [change]) := by
      simpa using hsum 1
    rw [List.map_cons, executeLoop_cons,
      executeOp_change m out n change s0 hs0 (hd change (List.mem_cons_self _ _)) h1]
    by_cases hrest : rest = []
    · subst hrest
      rfl
    · have hnext : (Atoi ((m.write n (Sprint (s0 + signedSum [change]))).read n)).1 =
          s0 + signedSum [change] := by
        rw [Memory.read_write_same, Atoi_Sprint _ h1.1 h1.2]
      rw [ih hrest _ _ hnext (fun c hc => hd c (List.mem_cons_of_mem _ hc)) (by
        intro k
        have := hsum (k + 1)
        simp only [List.take_succ_cons, signedSum] at this ⊢
        simpa [add_assoc] using this), Memory.write_write]
      simp only [signedSum, add_zero, add_assoc]


/-- On an absent variable `y`, the single operation `DECREMENT y 9223372036854775808`
has the partial sums `0` and `-2^63`, which fit in 64 bits, and yet stores
`-9223372036854775807`, not the decimal string of `-2^63`; and the empty
sequence leaves the variable absent, not at `0`. -/
theorem changes_of_absent_variable_not_signed_sum :
    (∀ k, InInt64 (signedSum ([(false, 9223372036854775808)].take k))) ∧
    (executeLoop ([(false, 9223372036854775808)].map (changeOperation "y".toList))
        (ExecState.mk Memory.empty false [])).mem "y".toList =
      some "-9223372036854775807".toList ∧
    Sprint (signedSum [(false, 9223372036854775808)]) = "-9223372036854775808".toList ∧
    "-9223372036854775807".toList ≠ "-9223372036854775808".toList ∧
    (executeLoop (([] : List (Bool × Int)).map (changeOperation "y".toList))
        (ExecState.mk Memory.empty false [])).mem "y".toList = none := by
  refine ⟨?_, by decide, by decide, by decide, by decide⟩
  intro k
  rcases k with _ | k
  · decide
  · simp only [List.take_succ_cons, List.take_nil]
    decide

/-- Claim C11, amended. For a variable `n` absent from memory and a non-empty sequence
of increments and decrements of `n` whose operands are decimal literals of
integers that fit in 64 bits, with every partial sum fitting in 64 bits,
executing the sequence with the flag false leaves `mem[n]` equal to the decimal
string of the signed sum from 0 and every other variable, the flag and the
output unchanged. -/
theorem changes_of_absent_variable (m : Memory) (out : List GoString) (n : GoString)
    (seq : List (Bool × Int)) (habsent : m n = none) (hne : seq ≠ [])
    (hd : ∀ change ∈ seq, InInt64 change.2)
    (hsum : ∀ k, InInt64 (signedSum (seq.take k))) :
    (executeLoop (seq.map (changeOperation n)) (ExecState.mk m false out)).mem n =
      some (Sprint (signedSum seq)) ∧
    (∀ k, k ≠ n →
      (executeLoop (seq.map (changeOperation n)) (ExecState.mk m false out)).mem k = m k) ∧
    (executeLoop (seq.map (changeOperation n))
      (ExecState.mk m false out)).shouldSkipProcessing = false ∧
    (executeLoop (seq.map (changeOperation n)) (ExecState.mk m false out)).output = out := by
  have hs0 : (Atoi (m.read n)).1 = 0 := by
    simp only [Memory.read, habsent, Option.getD_none]
    decide
  rw [executeLoop_changes n seq hne m out 0 hs0 hd (by simpa using hsum)]
  refine ⟨by simp [Memory.write], fun k hk => by simp [Memory.write, hk], rfl, rfl⟩

/-- The script `INCREMENT y 5; PRINT y` on empty memory stores `5` in `y` and prints
`5`. -/
theorem changes_of_absent_variable_witness :
    (executeLoop [.IncrementOperation "y".toList "5".toList]
        (ExecState.mk Memory.empty false [])).mem "y".toList = some "5".toList ∧
      run "INCREMENT y 5\nPRINT y\n".toList = .ok ["5".toList] :=
  ⟨(changes_of_absent_variable Memory.empty [] "y".toList [(true, 5)] rfl (by decide)
      (by decide) (by
        intro k
        rcases k with _ | k
        · decide
        · simp only [List.take_succ_cons, List.take_nil]
          decide)).1, by decide⟩

/-! ## Single operations and the flag: proofs -/

/-- Claim C12. A `DeclareOperation` of `n` executed with the flag false sets `mem[n]` to
the string `null`, whatever the memory held before, and leaves every other
variable, the flag and the output unchanged; the script `DECLARE x; PRINT x`
prints exactly the line `null`. -/
theorem declare_sets_null (m : Memory) (out : List GoString) (n : GoString) :
    (executeOp (ExecState.mk m false out) (.DeclareOperation n)).mem n = some "null".toList ∧
    (∀ k, k ≠ n → (executeOp (ExecState.mk m false out) (.DeclareOperation n)).mem k = m k) ∧
    (executeOp (ExecState.mk m false out) (.DeclareOperation n)).shouldSkipProcessing = false ∧
    (executeOp (ExecState.mk m false out) (.DeclareOperation n)).output = out ∧
    run "DECLARE x\nPRINT x\n".toList = .ok ["null".toList] := by
  refine ⟨?_, ?_, rfl, rfl, by decide⟩
  · simp [executeOp, Memory.write]
  · intro k hk
    simp [executeOp, Memory.write, hk]

/-- Claim C13. While the flag is true, every operation other than
`EndOfBranchOperation` is a no-op: one step from `(m, true)` gives `(m, true)` and
adds nothing to the output. -/
theorem skipping_is_noop (m : Memory) (out : List GoString) (op : Operation)
    (h : op ≠ .EndOfBranchOperation) :
    executeOp (ExecState.mk m true out) op = ExecState.mk m true out :=
  executeOp_skipping m out op h

/-- While skipping, `SET x 5` leaves the state as it is. -/
theorem skipping_is_noop_witness :
    executeOp (ExecState.mk Memory.empty true [])
        (.AssignmentOperation "x".toList "5".toList) =
      ExecState.mk Memory.empty true [] :=
  skipping_is_noop Memory.empty [] (.AssignmentOperation "x".toList "5".toList) (by decide)

/-- Claim C14. An `EndOfBranchOperation` always leaves the flag false, with memory
and output unchanged, whatever the flag was; and a step from a state with the
flag true leaves the flag false exactly when the operation is an
`EndOfBranchOperation`. -/
theorem branch_end_clears_skip_flag (m : Memory) (skip : Bool) (out : List GoString)
    (op : Operation) :
    executeOp (ExecState.mk m skip out) .EndOfBranchOperation = ExecState.mk m false out ∧
    ((executeOp (ExecState.mk m true out) op).shouldSkipProcessing = false ↔
      op = .EndOfBranchOperation) := by
  constructor
  · cases skip <;> rfl
  · constructor
    · intro h
      by_contra hne
      rw [executeOp_skipping m out op hne] at h
      cases h
    · rintro rfl
      rfl

/-- Claim C15. Nested conditionals are not modelled: with the flag false, running a
`BranchOperation` whose condition is false, then any `BranchOperation`, then `a`,
an `EndOfBranchOperation`, `b`, an `EndOfBranchOperation` and `rest`, where `a`
contains no `EndOfBranchOperation` (`b` may be any list, in particular one
without `EndOfBranchOperation`), ends in the same state as running `b`, the
`EndOfBranchOperation` and `rest` from the same memory with the flag false: the
inner branch is ignored and `b` is executed. -/
theorem nested_branch_not_modelled (m : Memory) (out : List GoString)
    (target1 operator1 comparison1 target2 operator2 comparison2 : GoString)
    (a b rest : List Operation)
    (hfalse : branchMatch (Atoi target1).1 operator1 (Atoi comparison1).1 = false)
    (ha : ∀ op ∈ a, op ≠ .EndOfBranchOperation) :
    executeLoop
        (.BranchOperation target1 operator1 comparison1 ::
          .BranchOperation target2 operator2 comparison2 ::
            (a ++ .EndOfBranchOperation :: (b ++ .EndOfBranchOperation :: rest)))
        (ExecState.mk m false out) =
      executeLoop (b ++ .EndOfBranchOperation :: rest) (ExecState.mk m false out) := by
  have h1 : executeOp (ExecState.mk m false out)
      (.BranchOperation target1 operator1 comparison1) = ExecState.mk m true out := by
    simp [executeOp, hfalse]
  rw [executeLoop_cons, h1, executeLoop_cons,
    executeOp_skipping m out _ (by intro h; cases h), executeLoop_append,
    executeLoop_skipping m out a ha, executeLoop_cons]
  rfl

/-- The script `IF 5 > 10; IF 1 < 2; PRINT x; ENDIF; PRINT y; ENDIF` runs like
`PRINT y; ENDIF`: it prints the value of `y`, here the empty string. -/
theorem nested_branch_not_modelled_witness :
    executeLoop
        [.BranchOperation "5".toList ">".toList "10".toList,
          .BranchOperation "1".toList "<".toList "2".toList,
          .PrintOperation "x".toList [], .EndOfBranchOperation,
          .PrintOperation "y".toList [], .EndOfBranchOperation]
        (ExecState.mk Memory.empty false []) =
      executeLoop [.PrintOperation "y".toList [], .EndOfBranchOperation]
        (ExecState.mk Memory.empty false []) ∧
    execute
        [.BranchOperation "5".toList ">".toList "10".toList,
          .BranchOperation "1".toList "<".toList "2".toList,
          .PrintOperation "x".toList [], .EndOfBranchOperation,
          .PrintOperation "y".toList [], .EndOfBranchOperation] = [[]] :=
  ⟨nested_branch_not_modelled Memory.empty [] "5".toList ">".toList "10".toList "1".toList
      "<".toList "2".toList [.PrintOperation "x".toList []] [.PrintOperation "y".toList []] []
      (by decide) (by decide), by decide⟩


theorem executeOp_flag_congr (st1 st2 : ExecState)
    (h : st1.shouldSkipProcessing = st2.shouldSkipProcessing) (op : Operation) :
    (executeOp st1 op).shouldSkipProcessing = (executeOp st2 op).shouldSkipProcessing := by
  obtain ⟨m1, s1, o1⟩ := st1
  obtain ⟨m2, s2, o2⟩ := st2
  simp only at h
  subst h
  cases s1 <;> cases op <;> simp only [executeOp, Bool.false_eq_true, if_false, if_true]
  split <;> rfl

theorem executeLoop_flag_congr (ops : List Operation) (st1 st2 : ExecState)
    (h : st1.shouldSkipProcessing = st2.shouldSkipProcessing) :
    (executeLoop ops st1).shouldSkipProcessing = (executeLoop ops st2).shouldSkipProcessing := by
  induction ops generalizing st1 st2 with
  | nil => exact h
  | cons op ops ih =>
    rw [executeLoop_cons, executeLoop_cons]
    exact ih _ _ (executeOp_flag_congr st1 st2 h op)

set_option maxRecDepth 4096 in
theorem run_set_if_print :
    run "SET x 50\nIF x > 10\nPRINT x\nENDIF\n".toList = .ok [] := by
  decide

/-- Claim C18. Control flow never depends on variable values: from any two memories,
with the flag false, the flag after every prefix of an operation list is the
same; one step gives the same flag from any two memories, so a
`BranchOperation` never looks a name up; and `SET x 50; IF x > 10; PRINT x; ENDIF`
reads `x` as 0 and prints nothing. -/
theorem skip_flag_independent_of_memory (operationList : List Operation) (m1 m2 : Memory)
    (out1 out2 : List GoString) (k : Nat) :
    (executeLoop (operationList.take k) (ExecState.mk m1 false out1)).shouldSkipProcessing =
      (executeLoop (operationList.take k) (ExecState.mk m2 false out2)).shouldSkipProcessing ∧
    (∀ (skip : Bool) (op : Operation),
      (executeOp (ExecState.mk m1 skip out1) op).shouldSkipProcessing =
        (executeOp (ExecState.mk m2 skip out2) op).shouldSkipProcessing) ∧
    (Atoi "x".toList).1 = 0 ∧
    run "SET x 50\nIF x > 10\nPRINT x\nENDIF\n".toList = .ok [] :=
  ⟨executeLoop_flag_congr _ (ExecState.mk m1 false out1) (ExecState.mk m2 false out2) rfl,
    fun skip op =>
      executeOp_flag_congr (ExecState.mk m1 skip out1) (ExecState.mk m2 skip out2) rfl op,
    by decide, run_set_if_print⟩

/-! ## Increment and decrement by the same operand: proofs -/

theorem wrapInt64_InInt64 (x : Int) : InInt64 (wrapInt64 x) := by
  unfold wrapInt64 InInt64
  omega

theorem wrapInt64_add_sub (c x : Int) (hc : InInt64 c) :
    wrapInt64 (wrapInt64 (c + x) - x) = c := by
  unfold InInt64 at hc
  unfold wrapInt64
  omega

theorem wrapInt64_sub_add (c x : Int) (hc : InInt64 c) :
    wrapInt64 (wrapInt64 (c - x) + x) = c := by
  unfold InInt64 at hc
  unfold wrapInt64
  omega

theorem AtoiFastLoop_InInt64 (ds : List Char) (n0 n : Int) (h0 : InInt64 n0)
    (h : AtoiFastLoop ds n0 = some n) : InInt64 n := by
  induction ds generalizing n0 with
  | nil =>
    simp only [AtoiFastLoop, Option.some.injEq] at h
    exact h ▸ h0
  | cons c ds ih =>
    simp only [AtoiFastLoop] at h
    split at h
    · exact ih _ (wrapInt64_InInt64 _) h
    · cases h

/-- The value `Atoi` returns always fits in 64 bits. -/
theorem Atoi_InInt64 (s : GoString) : InInt64 (Atoi s).1 := by
  unfold Atoi
  split_ifs with hlen
  · cases s with
    | nil => decide
    | cons c rest =>
      simp only []
      split_ifs with h1 h2 <;> first
        | decide
        | (split
           · decide
           · next n hn =>
             have := AtoiFastLoop_InInt64 _ 0 n (by decide) hn
             first
               | exact this
               | exact wrapInt64_InInt64 _)
  · unfold ParseInt
    cases s with
    | nil => decide
    | cons c rest =>
      simp only []
      split
      · decide
      · split_ifs with h1 h2 h3
        · decide
        · decide
        · have hle : ¬ _ := fun hgt => h2 ⟨h3, hgt⟩
          unfold InInt64
          constructor <;> push_cast <;> omega
        · have hlt : ¬ _ := fun hge => h1 ⟨by simpa using h3, hge⟩
          unfold InInt64
          constructor <;> push_cast <;> omega


/-- An increment and then a decrement by the same operand, or the other way round,
leave in the variable the decimal string of the integer `Atoi` read from it. -/
theorem executeLoop_increment_decrement (m : Memory) (out : List GoString) (n d : GoString) :
    executeLoop [.IncrementOperation n d, .DecrementOperation n d] (ExecState.mk m false out) =
      ExecState.mk (m.write n (Sprint (Atoi (m.read n)).1)) false out ∧
    executeLoop [.DecrementOperation n d, .IncrementOperation n d] (ExecState.mk m false out) =
      ExecState.mk (m.write n (Sprint (Atoi (m.read n)).1)) false out := by
  have hc := Atoi_InInt64 (m.read n)
  have h1 := wrapInt64_InInt64 ((Atoi (m.read n)).1 + (Atoi d).1)
  have h2 := wrapInt64_InInt64 ((Atoi (m.read n)).1 - (Atoi d).1)
  constructor
  · simp only [executeLoop, List.foldl_cons, List.foldl_nil, executeOp, Bool.false_eq_true,
      if_false, Memory.read_write_same, Atoi_Sprint _ h1.1 h1.2, Memory.write_write,
      wrapInt64_add_sub _ _ hc]
  · simp only [executeLoop, List.foldl_cons, List.foldl_nil, executeOp, Bool.false_eq_true,
      if_false, Memory.read_write_same, Atoi_Sprint _ h2.1 h2.2, Memory.write_write,
      wrapInt64_sub_add _ _ hc]

theorem Memory.write_same (m : Memory) (k v : GoString) (h : m k = some v) : m.write k v = m := by
  funext k1
  simp only [Memory.write]
  split
  · next hk => rw [hk, h]
  · rfl

/-- Claim C20. When `mem[n]` is the decimal string of a 64-bit integer `v`, an
increment of `n` by any operand token `d` followed by a decrement by `d`, or the
decrement followed by the increment, executed with the flag false, leaves the
whole state as it was, also when the intermediate value wraps around; from any
memory the pair leaves in `n` the decimal string of the integer read from
`mem[n]`, which for an absent variable and for `null` is `0`, for `+5` is `5` and
for `007` is `7`. -/
theorem increment_decrement_inverse (m : Memory) (out : List GoString) (n d : GoString)
    (v : Int) (hv : InInt64 v) (hm : m n = some (Sprint v)) :
    executeLoop [.IncrementOperation n d, .DecrementOperation n d] (ExecState.mk m false out) =
      ExecState.mk m false out ∧
    executeLoop [.DecrementOperation n d, .IncrementOperation n d] (ExecState.mk m false out) =
      ExecState.mk m false out ∧
    (∀ m1 : Memory,
      executeLoop [.IncrementOperation n d, .DecrementOperation n d]
          (ExecState.mk m1 false out) =
        ExecState.mk (m1.write n (Sprint (Atoi (m1.read n)).1)) false out ∧
      executeLoop [.DecrementOperation n d, .IncrementOperation n d]
          (ExecState.mk m1 false out) =
        ExecState.mk (m1.write n (Sprint (Atoi (m1.read n)).1)) false out) ∧
    Memory.empty.read n = [] ∧
    Sprint (Atoi []).1 = "0".toList ∧
    Sprint (Atoi "null".toList).1 = "0".toList ∧
    Sprint (Atoi "+5".toList).1 = "5".toList ∧
    Sprint (Atoi "007".toList).1 = "7".toList := by
  have hread : m.read n = Sprint v := by simp [Memory.read, hm]
  have hback : m.write n (Sprint (Atoi (m.read n)).1) = m := by
    rw [hread, Atoi_Sprint v hv.1 hv.2]
    exact Memory.write_same m n _ hm
  have hpair := executeLoop_increment_decrement m out n d
  rw [hback] at hpair
  exact ⟨hpair.1, hpair.2, fun m1 => executeLoop_increment_decrement m1 out n d,
    rfl, by decide, by decide, by decide, by decide⟩

/-- On a variable holding `9223372036854775807`, `INCREMENT x 1` wraps around to
`-9223372036854775808` and `DECREMENT x 1` brings the value back. -/
theorem increment_decrement_inverse_witness :
    (executeOp (ExecState.mk (Memory.empty.write "x".toList "9223372036854775807".toList) false [])
        (.IncrementOperation "x".toList "1".toList)).mem "x".toList =
      some "-9223372036854775808".toList ∧
    executeLoop [.IncrementOperation "x".toList "1".toList,
          .DecrementOperation "x".toList "1".toList]
        (ExecState.mk (Memory.empty.write "x".toList "9223372036854775807".toList) false []) =
      ExecState.mk (Memory.empty.write "x".toList "9223372036854775807".toList) false [] :=
  ⟨by decide,
    (increment_decrement_inverse (Memory.empty.write "x".toList "9223372036854775807".toList)
      [] "x".toList "1".toList 9223372036854775807 (by decide) (by decide)).1⟩


/-! ## Decimal text outside the 64-bit range: proofs -/

/-- Digits whose number passes `2^64 - 1` end the loop of `ParseUint` with the range
error. -/
theorem ParseUintLoop_overflow (ds : List Char) (hds : ∀ c ∈ ds, isDecimalDigit c = true)
    (n : Nat) (hn : n < 2 ^ 64) (h : 2 ^ 64 ≤ decimalValue ds n) :
    ParseUintLoop ds n = (2 ^ 64 - 1, some .ErrRange) := by
  induction ds generalizing n with
  | nil =>
    simp only [decimalValue, List.foldl_nil] at h
    omega
  | cons c ds ih =>
    have hc := hds c (List.mem_cons_self _ _)
    have hd := digit_bounds hc
    rw [decimalValue_cons] at h
    simp only [ParseUintLoop, hc, if_true]
    split_ifs with h1 h2
    · rfl
    · rfl
    · have h3 : (n * 10) % 2 ^ 64 = n * 10 := Nat.mod_eq_of_lt (by
        norm_num at h1
        omega)
      rw [h3] at h2 ⊢
      have h4 : n * 10 + (c.toNat - 48) < 2 ^ 64 := by
        by_contra hcon
        apply h2
        left
        have h5 : (n * 10 + (c.toNat - 48)) % 2 ^ 64 = n * 10 + (c.toNat - 48) - 2 ^ 64 := by
          norm_num at h1
          omega
        rw [h5]
        omega
      rw [Nat.mod_eq_of_lt h4]
      exact ih (fun x hx => hds x (List.mem_cons_of_mem _ hx)) _ h4 h

/-- What `ParseUint` reads from a non-empty string of digits: its number, or the
range error when the number passes `2^64 - 1`. -/
theorem ParseUint_digits (ds : List Char) (hne : ds ≠ [])
    (hds : ∀ c ∈ ds, isDecimalDigit c = true) :
    (decimalValue ds 0 < 2 ^ 64 ∧ ParseUint ds = (decimalValue ds 0, none)) ∨
      (2 ^ 64 ≤ decimalValue ds 0 ∧ ParseUint ds = (2 ^ 64 - 1, some .ErrRange)) := by
  obtain ⟨c, rest, rfl⟩ := List.exists_cons_of_ne_nil hne
  unfold ParseUint
  by_cases h : decimalValue (c :: rest) 0 < 2 ^ 64
  · exact Or.inl ⟨h, ParseUintLoop_digits _ hds 0 h⟩
  · exact Or.inr ⟨by omega, ParseUintLoop_overflow _ hds 0 (by norm_num) (by omega)⟩

theorem length_ge_of_decimalValue_ge (ds : List Char) (hds : ∀ c ∈ ds, isDecimalDigit c = true)
    (h : 2 ^ 63 ≤ decimalValue ds 0) : 19 ≤ ds.length := by
  by_contra hcon
  have h1 := decimalValue_lt ds hds 0
  have h2 := ten_pow_le ds.length (by omega)
  omega

/-- A string of digits that writes a number above `2^63 - 1`: `Atoi` returns
`2^63 - 1` and the range error. -/
theorem Atoi_digits_above (ds : List Char) (hds : ∀ c ∈ ds, isDecimalDigit c = true)
    (h : 2 ^ 63 ≤ decimalValue ds 0) : Atoi ds = (2 ^ 63 - 1, some .ErrRange) := by
  have hlen := length_ge_of_decimalValue_ge ds hds h
  have hne : ds ≠ [] := by
    rintro rfl
    simp at hlen
  have hpu := ParseUint_digits ds hne hds
  obtain ⟨c, rest, rfl⟩ := List.exists_cons_of_ne_nil hne
  have hc := not_sign_of_digit (hds c (List.mem_cons_self _ _))
  unfold Atoi
  rw [if_neg (by omega)]
  unfold ParseInt
  simp only [hc.1, hc.2, or_self, if_false, decide_False]
  rcases hpu with ⟨_, hp⟩ | ⟨_, hp⟩
  · rw [hp]
    simp
    omega
  · rw [hp]
    simp

/-- A minus sign and a string of digits that writes a number above `2^63`: `Atoi`
returns `-2^63` and the range error. -/
theorem Atoi_neg_digits_below (ds : List Char) (hds : ∀ c ∈ ds, isDecimalDigit c = true)
    (h : 2 ^ 63 < decimalValue ds 0) : Atoi ('-' :: ds) = (-(2 ^ 63), some .ErrRange) := by
  have hlen := length_ge_of_decimalValue_ge ds hds (by omega)
  have hne : ds ≠ [] := by
    rintro rfl
    simp at hlen
  have hpu := ParseUint_digits ds hne hds
  unfold Atoi
  rw [if_neg (by simp; omega)]
  unfold ParseInt
  simp only [or_true, if_true, decide_True]
  rcases hpu with ⟨_, hp⟩ | ⟨_, hp⟩
  · rw [hp]
    simp
    omega
  · rw [hp]
    simp


theorem increment_zero_by (m : Memory) (out : List GoString) (n operand : GoString) (x : Int)
    (e : Option NumError) (h : Atoi operand = (x, e)) :
    (executeOp (ExecState.mk (m.write n "0".toList) false out)
        (.IncrementOperation n operand)).mem n = some (Sprint (wrapInt64 (0 + x))) := by
  have h0 : Atoi "0".toList = (0, none) := by decide
  simp only [executeOp, Bool.false_eq_true, if_false, Memory.read_write_same, h0, h]
  simp [Memory.write]

/-- Claim C19. Out-of-range integer text is not coerced to zero.  For an operand
token made of decimal digits that writes a number above `2^63 - 1`, `Atoi`
reports a range error and returns `2^63 - 1`, and an increment by that operand
of a variable holding `0`, with the flag false, stores `9223372036854775807`;
with a minus sign before digits that write a number above `2^63`, `Atoi` returns
`-2^63` and the increment stores `-9223372036854775808`.  The same holds for the
decimal string of any integer above `2^63 - 1` or below `-2^63`. -/
theorem out_of_range_text_saturates (m : Memory) (out : List GoString) (n : GoString)
    (ds : List Char) (hds : ∀ c ∈ ds, isDecimalDigit c = true) :
    (2 ^ 63 ≤ decimalValue ds 0 →
      Atoi ds = (2 ^ 63 - 1, some .ErrRange) ∧
      (executeOp (ExecState.mk (m.write n "0".toList) false out)
          (.IncrementOperation n ds)).mem n = some "9223372036854775807".toList) ∧
    (2 ^ 63 < decimalValue ds 0 →
      Atoi ('-' :: ds) = (-(2 ^ 63), some .ErrRange) ∧
      (executeOp (ExecState.mk (m.write n "0".toList) false out)
          (.IncrementOperation n ('-' :: ds))).mem n = some "-9223372036854775808".toList) ∧
    (∀ v : Int, 2 ^ 63 ≤ v → Atoi (Sprint v) = (2 ^ 63 - 1, some .ErrRange)) ∧
    (∀ v : Int, v < -(2 ^ 63) → Atoi (Sprint v) = (-(2 ^ 63), some .ErrRange)) := by
  refine ⟨fun h => ?_, fun h => ?_, fun v hv => ?_, fun v hv => ?_⟩
  · have hA := Atoi_digits_above ds hds h
    refine ⟨hA, ?_⟩
    rw [increment_zero_by m out n ds _ _ hA]
    decide
  · have hA := Atoi_neg_digits_below ds hds h
    refine ⟨hA, ?_⟩
    rw [increment_zero_by m out n _ _ _ hA]
    decide
  · obtain ⟨es, hfmt, -, hes, hval⟩ := formatUint_spec v.natAbs
    unfold Sprint
    rw [if_neg (by omega), hfmt]
    exact Atoi_digits_above es hes (by omega)
  · obtain ⟨es, hfmt, -, hes, hval⟩ := formatUint_spec v.natAbs
    unfold Sprint
    rw [if_pos (by omega), hfmt]
    exact Atoi_neg_digits_below es hes (by omega)

/-- On a variable holding `0`, `INCREMENT x 99999999999999999999` stores
`9223372036854775807` and `INCREMENT x -99999999999999999999` stores
`-9223372036854775808`. -/
theorem out_of_range_text_saturates_witness :
    (executeOp (ExecState.mk (Memory.empty.write "x".toList "0".toList) false [])
        (.IncrementOperation "x".toList "99999999999999999999".toList)).mem "x".toList =
      some "9223372036854775807".toList ∧
    (executeOp (ExecState.mk (Memory.empty.write "x".toList "0".toList) false [])
        (.IncrementOperation "x".toList "-99999999999999999999".toList)).mem "x".toList =
      some "-9223372036854775808".toList :=
  ⟨((out_of_range_text_saturates Memory.empty [] "x".toList "99999999999999999999".toList
      (by decide)).1 (by decide)).2,
    ((out_of_range_text_saturates Memory.empty [] "x".toList "99999999999999999999".toList
      (by decide)).2.1 (by decide)).2⟩


/-! ## Scripts without a last delimiter, and empty tokens: proofs -/

/-- The text before a delimiter-ended prefix and the text after it are lexed
apart. -/
theorem parseScript_append (p q : GoString)
    (hp : p = [] ∨ ∃ d, isDelimiter d ∧ p.getLast? = some d) :
    parseScript (p ++ q) = parseScript p ++ parseScript q := by
  unfold parseScript
  rcases hp with rfl | ⟨d, hd, hlast⟩
  · rfl
  · obtain ⟨s1, rfl⟩ : ∃ s1, p = s1 ++ [d] := by
      refine ⟨p.dropLast, ?_⟩
      exact (List.dropLast_append_getLast? d (by simpa using hlast)).symm
    rw [List.append_assoc, List.singleton_append, parseScriptLoop_after_delimiter s1 d hd q,
      parseScriptLoop_acc]

/-- Words that each end in a delimiter, then a last word without one: the last
word is lost. -/
theorem parseScript_joinWords_append (ws : List (GoString × Char))
    (h : ∀ p ∈ ws, isWord p.1 ∧ isDelimiter p.2) (last : GoString) (hl : isWord last) :
    parseScript (joinWords ws ++ last) = ws.map (fun p => Token.mk p.1) := by
  unfold parseScript
  induction ws with
  | nil => exact parseScriptLoop_of_isWord last hl [] []
  | cons p ws ih =>
    obtain ⟨w, d⟩ := p
    have hp := h (w, d) (List.mem_cons_self _ _)
    simp only [joinWords, List.map_cons, List.append_assoc, List.cons_append]
    rw [parseScriptLoop_word w hp.1 d hp.2 _ _ [] (fun _ hx => by cases hx),
      parseScriptLoop_acc, ih (fun q hq => h q (List.mem_cons_of_mem _ hq))]
    simp

theorem analyse_fail_head (t : Token) (rest : List Token) (h : rest.length < arity t.Value) :
    analyse (t :: rest) = .error .indexOutOfRange := by
  unfold analyse
  simp only [List.length_cons]
  exact analyseLoop_step_fail (t :: rest) rest.length 0 [] t (by simp) (by
    simp only [List.length_cons]
    omega)

/-- A token with all its operands is dispatched the same way whatever follows the
operands. -/
theorem analyse_head (t : Token) (rest : List Token) (h : arity t.Value ≤ rest.length) :
    ∃ newOps, ∀ tail,
      analyse (t :: (rest.take (arity t.Value) ++ tail)) = prependOps newOps (analyse tail) := by
  obtain ⟨v⟩ := t
  simp only at h ⊢
  unfold arity at h ⊢
  split_ifs at h ⊢ with h1 h2 h3 h4 h5 h6
  · subst h1
    obtain ⟨a, rest1, rfl⟩ := List.exists_cons_of_length_pos (by omega : 0 < rest.length)
    exact ⟨[.DeclareOperation a.Value], fun tail => by
      rw [prependOps_eq_map]; exact analyse_DECLARE a.Value tail⟩
  · subst h2
    obtain ⟨a, rest1, rfl⟩ := List.exists_cons_of_length_pos (by omega : 0 < rest.length)
    obtain ⟨b, rest2, rfl⟩ := List.exists_cons_of_length_pos
      (by simp at h; omega : 0 < rest1.length)
    exact ⟨[.AssignmentOperation a.Value b.Value], fun tail => by
      rw [prependOps_eq_map]; exact analyse_SET a.Value b.Value tail⟩
  · subst h3
    obtain ⟨a, rest1, rfl⟩ := List.exists_cons_of_length_pos (by omega : 0 < rest.length)
    exact ⟨[.PrintOperation a.Value []], fun tail => by
      rw [prependOps_eq_map]; exact analyse_PRINT a.Value tail⟩
  · subst h4
    obtain ⟨a, rest1, rfl⟩ := List.exists_cons_of_length_pos (by omega : 0 < rest.length)
    obtain ⟨b, rest2, rfl⟩ := List.exists_cons_of_length_pos
      (by simp at h; omega : 0 < rest1.length)
    exact ⟨[.IncrementOperation a.Value b.Value], fun tail => by
      rw [prependOps_eq_map]; exact analyse_INCREMENT a.Value b.Value tail⟩
  · subst h5
    obtain ⟨a, rest1, rfl⟩ := List.exists_cons_of_length_pos (by omega : 0 < rest.length)
    obtain ⟨b, rest2, rfl⟩ := List.exists_cons_of_length_pos
      (by simp at h; omega : 0 < rest1.length)
    exact ⟨[.DecrementOperation a.Value b.Value], fun tail => by
      rw [prependOps_eq_map]; exact analyse_DECREMENT a.Value b.Value tail⟩
  · subst h6
    obtain ⟨a, rest1, rfl⟩ := List.exists_cons_of_length_pos (by omega : 0 < rest.length)
    obtain ⟨b, rest2, rfl⟩ := List.exists_cons_of_length_pos
      (by simp at h; omega : 0 < rest1.length)
    obtain ⟨c, rest3, rfl⟩ := List.exists_cons_of_length_pos
      (by simp at h; omega : 0 < rest2.length)
    exact ⟨[.BranchOperation a.Value b.Value c.Value], fun tail => by
      rw [prependOps_eq_map]; exact analyse_IF a.Value b.Value c.Value tail⟩
  · by_cases h7 : v = "ENDIF".toList
    · subst h7
      exact ⟨[.EndOfBranchOperation], fun tail => by
        rw [prependOps_eq_map]; exact analyse_ENDIF tail⟩
    · exact ⟨[], fun tail => by
        rw [prependOps_nil]
        exact analyse_skip (Token.mk v) (by
          simp only [isKeyword, not_or]
          exact ⟨h1, h2, h3, h4, h5, h6, h7⟩) tail⟩

theorem prependOps_eq_ok {a : List Operation} {r : Except Failure (List Operation)}
    {ops : List Operation} (h : prependOps a r = .ok ops) :
    ∃ ops1, r = .ok ops1 ∧ ops = a ++ ops1 := by
  cases r with
  | error e => cases h
  | ok ops1 =>
    simp only [prependOps, Except.ok.injEq] at h
    exact ⟨ops1, rfl, h.symm⟩

theorem analyse_append_aux (suf : List Token) (n : Nat) :
    ∀ (pre : List Token) (ops : List Operation), pre.length ≤ n → analyse pre = .ok ops →
      analyse (pre ++ suf) = prependOps ops (analyse suf) := by
  induction n with
  | zero =>
    intro pre ops hlen h
    obtain rfl : pre = [] := List.length_eq_zero.1 (by omega)
    rw [analyse_nil] at h
    cases h
    simp
  | succ n ih =>
    intro pre ops hlen h
    cases pre with
    | nil =>
      rw [analyse_nil] at h
      cases h
      simp
    | cons t rest =>
      by_cases hk : arity t.Value ≤ rest.length
      · obtain ⟨newOps, hhead⟩ := analyse_head t rest hk
        have hsplit := List.take_append_drop (arity t.Value) rest
        have h1 := hhead (rest.drop (arity t.Value))
        rw [hsplit, h] at h1
        obtain ⟨ops1, hr, rfl⟩ := prependOps_eq_ok h1.symm
        have h2 := hhead (rest.drop (arity t.Value) ++ suf)
        rw [← List.append_assoc, hsplit] at h2
        rw [List.cons_append, h2,
          ih (rest.drop (arity t.Value)) ops1 (by
            simp only [List.length_drop, List.length_cons] at hlen ⊢
            omega) hr]
        simp
      · rw [analyse_fail_head t rest (by omega)] at h
        cases h

/-- Tokens that analyse without failure, followed by more tokens: the operations
of the first part, then the analysis of the second. -/
theorem analyse_append (pre suf : List Token) (ops : List Operation)
    (h : analyse pre = .ok ops) : analyse (pre ++ suf) = prependOps ops (analyse suf) :=
  analyse_append_aux suf pre.length pre ops (Nat.le_refl _) h


theorem joinWords_append (ws vs : List (GoString × Char)) :
    joinWords (ws ++ vs) = joinWords ws ++ joinWords vs := by
  induction ws with
  | nil => rfl
  | cons p ws ih =>
    obtain ⟨w, d⟩ := p
    show w ++ d :: joinWords (ws ++ vs) = (w ++ d :: joinWords ws) ++ joinWords vs
    rw [ih]
    simp

/-- A script that analyses without failure, then one more command: without a
delimiter after its last word the command loses that word, and with a newline
after it the command keeps it. -/
theorem analyse_last_command (p : GoString) (ops : List Operation)
    (hp : p = [] ∨ ∃ d, isDelimiter d ∧ p.getLast? = some d)
    (hok : analyse (parseScript p) = .ok ops)
    (ws : List (GoString × Char)) (hws : ∀ q ∈ ws, isWord q.1 ∧ isDelimiter q.2)
    (last : GoString) (hl : isWord last) (opsK : List Operation)
    (hfail : analyse (ws.map (fun q => Token.mk q.1)) = .error .indexOutOfRange)
    (hfull : analyse (ws.map (fun q => Token.mk q.1) ++ [Token.mk last]) = .ok opsK) :
    analyse (parseScript (p ++ (joinWords ws ++ last))) = .error .indexOutOfRange ∧
      analyse (parseScript (p ++ (joinWords ws ++ last ++ ['\n']))) = .ok (ops ++ opsK) := by
  constructor
  · rw [parseScript_append p _ hp, parseScript_joinWords_append ws hws last hl,
      analyse_append _ _ ops hok, hfail]
    rfl
  · have e : joinWords ws ++ last ++ ['\n'] = joinWords (ws ++ [(last, '\n')]) ++ [] := by
      simp [joinWords_append, joinWords]
    rw [parseScript_append p _ hp, e,
      parseScript_joinWords_append (ws ++ [(last, '\n')]) (by
        intro q hq
        rcases List.mem_append.1 hq with h1 | h1
        · exact hws q h1
        · rw [List.mem_singleton] at h1
          subst h1
          exact ⟨hl, Or.inr rfl⟩) [] (fun _ hx => by cases hx),
      analyse_append _ _ ops hok, List.map_append]
    simp only [List.map_cons, List.map_nil]
    rw [hfull]
    rfl

/-- Claim C16. A script without a delimiter after its last word crashes the
pipeline.  Let the script `p` be empty or end with a space or newline, and let
`analyse (parseScript p)` return the operations `ops`.  For each keyword with
operands and words `a1`, `a2`, `a3` without space or newline (empty or not),
`analyse` fails with the out-of-range access on the tokens of `p` followed by
the keyword and its operands separated by single spaces with nothing after the
last operand, and returns `ops` followed by the operation of the keyword when a
newline follows the last operand. -/
theorem unterminated_script_crashes (p : GoString) (ops : List Operation) (a1 a2 a3 : GoString)
    (hp : p = [] ∨ ∃ d, isDelimiter d ∧ p.getLast? = some d)
    (hok : analyse (parseScript p) = .ok ops)
    (h1 : isWord a1) (h2 : isWord a2) (h3 : isWord a3) :
    (analyse (parseScript (p ++ ("DECLARE ".toList ++ a1))) = .error .indexOutOfRange ∧
      analyse (parseScript (p ++ ("DECLARE ".toList ++ a1 ++ "\n".toList))) =
        .ok (ops ++ [.DeclareOperation a1])) ∧
    (analyse (parseScript (p ++ ("SET ".toList ++ a1 ++ " ".toList ++ a2))) =
        .error .indexOutOfRange ∧
      analyse (parseScript (p ++ ("SET ".toList ++ a1 ++ " ".toList ++ a2 ++ "\n".toList))) =
        .ok (ops ++ [.AssignmentOperation a1 a2])) ∧
    (analyse (parseScript (p ++ ("PRINT ".toList ++ a1))) = .error .indexOutOfRange ∧
      analyse (parseScript (p ++ ("PRINT ".toList ++ a1 ++ "\n".toList))) =
        .ok (ops ++ [.PrintOperation a1 []])) ∧
    (analyse (parseScript (p ++ ("INCREMENT ".toList ++ a1 ++ " ".toList ++ a2))) =
        .error .indexOutOfRange ∧
      analyse (parseScript
          (p ++ ("INCREMENT ".toList ++ a1 ++ " ".toList ++ a2 ++ "\n".toList))) =
        .ok (ops ++ [.IncrementOperation a1 a2])) ∧
    (analyse (parseScript (p ++ ("DECREMENT ".toList ++ a1 ++ " ".toList ++ a2))) =
        .error .indexOutOfRange ∧
      analyse (parseScript
          (p ++ ("DECREMENT ".toList ++ a1 ++ " ".toList ++ a2 ++ "\n".toList))) =
        .ok (ops ++ [.DecrementOperation a1 a2])) ∧
    (analyse (parseScript
          (p ++ ("IF ".toList ++ a1 ++ " ".toList ++ a2 ++ " ".toList ++ a3))) =
        .error .indexOutOfRange ∧
      analyse (parseScript
          (p ++ ("IF ".toList ++ a1 ++ " ".toList ++ a2 ++ " ".toList ++ a3 ++ "\n".toList))) =
        .ok (ops ++ [.BranchOperation a1 a2 a3])) := by
  have hsp : isDelimiter ' ' := Or.inl rfl
  have hkw : isWord "DECLARE".toList ∧ isWord "SET".toList ∧ isWord "PRINT".toList ∧
      isWord "INCREMENT".toList ∧ isWord "DECREMENT".toList ∧ isWord "IF".toList := by decide
  obtain ⟨k1, k2, k3, k4, k5, k6⟩ := hkw
  refine ⟨?_, ?_, ?_, ?_, ?_, ?_⟩
  · have h := analyse_last_command p ops hp hok [("DECLARE".toList, ' ')]
      (by simpa using ⟨k1, hsp⟩) a1 h1 [.DeclareOperation a1] rfl
      (by simp only [List.map_cons, List.map_nil, List.cons_append, List.nil_append]
          rw [analyse_DECLARE, analyse_nil]; rfl)
    simpa [joinWords] using h
  · have h := analyse_last_command p ops hp hok [("SET".toList, ' '), (a1, ' ')]
      (by simpa using ⟨⟨k2, hsp⟩, h1, hsp⟩) a2 h2 [.AssignmentOperation a1 a2] rfl
      (by simp only [List.map_cons, List.map_nil, List.cons_append, List.nil_append]
          rw [analyse_SET, analyse_nil]; rfl)
    simpa [joinWords] using h
  · have h := analyse_last_command p ops hp hok [("PRINT".toList, ' ')]
      (by simpa using ⟨k3, hsp⟩) a1 h1 [.PrintOperation a1 []] rfl
      (by simp only [List.map_cons, List.map_nil, List.cons_append, List.nil_append]
          rw [analyse_PRINT, analyse_nil]; rfl)
    simpa [joinWords] using h
  · have h := analyse_last_command p ops hp hok [("INCREMENT".toList, ' '), (a1, ' ')]
      (by simpa using ⟨⟨k4, hsp⟩, h1, hsp⟩) a2 h2 [.IncrementOperation a1 a2] rfl
      (by simp only [List.map_cons, List.map_nil, List.cons_append, List.nil_append]
          rw [analyse_INCREMENT, analyse_nil]; rfl)
    simpa [joinWords] using h
  · have h := analyse_last_command p ops hp hok [("DECREMENT".toList, ' '), (a1, ' ')]
      (by simpa using ⟨⟨k5, hsp⟩, h1, hsp⟩) a2 h2 [.DecrementOperation a1 a2] rfl
      (by simp only [List.map_cons, List.map_nil, List.cons_append, List.nil_append]
          rw [analyse_DECREMENT, analyse_nil]; rfl)
    simpa [joinWords] using h
  · have h := analyse_last_command p ops hp hok [("IF".toList, ' '), (a1, ' '), (a2, ' ')]
      (by simpa using ⟨⟨k6, hsp⟩, ⟨h1, hsp⟩, h2, hsp⟩) a3 h3 [.BranchOperation a1 a2 a3] rfl
      (by simp only [List.map_cons, List.map_nil, List.cons_append, List.nil_append]
          rw [analyse_IF, analyse_nil]; rfl)
    simpa [joinWords] using h


/-- The script `SET x 5` followed by `PRINT x` without a newline at the end fails in
`analyse`; with the newline it gives the two operations. -/
theorem unterminated_script_crashes_witness :
    analyse (parseScript "SET x 5\nPRINT x".toList) = .error .indexOutOfRange ∧
      analyse (parseScript "SET x 5\nPRINT x\n".toList) =
        .ok [.AssignmentOperation "x".toList "5".toList, .PrintOperation "x".toList []] :=
  (unterminated_script_crashes "SET x 5\n".toList
    [.AssignmentOperation "x".toList "5".toList] "x".toList "1".toList "2".toList
    (Or.inr ⟨'\n', by decide, by decide⟩) (by decide) (by decide) (by decide)
    (by decide)).2.2.1

theorem parseScriptLoop_length (s : List Char) (tokenList : List Token) (token : GoString) :
    (parseScriptLoop s tokenList token).length =
      tokenList.length + s.countP (fun c => decide (isDelimiter c)) := by
  induction s generalizing tokenList token with
  | nil => simp [parseScriptLoop]
  | cons c s ih =>
    simp only [parseScriptLoop, List.countP_cons]
    by_cases hc : c = ' ' ∨ c = '\n'
    · have hd : isDelimiter c := hc
      simp only [hc, if_true, ih, List.length_append, List.length_singleton, hd, decide_True]
      omega
    · have hd : ¬ isDelimiter c := hc
      simp only [hc, if_false, ih, hd, decide_False, Bool.false_eq_true, add_zero]

theorem isWord_cleanToken (token : GoString) :
    isWord (removeAll (removeAll token '\n') ' ') := by
  intro c hc
  simp only [removeAll, List.mem_filter, Bool.not_eq_true', beq_eq_false_iff_ne, ne_eq] at hc
  rintro (h | h)
  · exact hc.2 h
  · exact hc.1.2 h

theorem parseScriptLoop_isWord (s : List Char) (tokenList : List Token) (token : GoString)
    (h : ∀ t ∈ tokenList, isWord t.Value) :
    ∀ t ∈ parseScriptLoop s tokenList token, isWord t.Value := by
  induction s generalizing tokenList token with
  | nil => simpa [parseScriptLoop] using h
  | cons c s ih =>
    simp only [parseScriptLoop]
    split
    · apply ih
      intro t ht
      rcases List.mem_append.1 ht with h1 | h1
      · exact h t h1
      · rw [List.mem_singleton] at h1
        subst h1
        exact isWord_cleanToken _
    · exact ih _ _ h

theorem parseScript_delimiter_cons (d : Char) (hd : isDelimiter d) (rest : GoString) :
    parseScript (d :: rest) = Token.mk [] :: parseScript rest := by
  have hd1 : d = ' ' ∨ d = '\n' := hd
  have hclean : removeAll (removeAll ([] ++ [d]) '\n') ' ' = [] :=
    cleanToken_eq (w := []) (fun _ hx => by cases hx) hd
  unfold parseScript
  simp only [parseScriptLoop, hd1, if_true, hclean]
  rw [parseScriptLoop_acc]
  rfl

/-- Claim C17. For every script text, `parseScript` returns as many tokens as the text
has spaces and newlines, and no token contains a space or a newline; a
delimiter at the start of the text or right after another delimiter gives an
empty token: `"SET  x 5\n"` lexes to `[SET, "", x, 5]`, which `analyse` turns into
the single assignment of `x` to the empty name. -/
theorem parseScript_token_count (s : GoString) :
    (parseScript s).length = s.countP (fun c => decide (isDelimiter c)) ∧
    (∀ t ∈ parseScript s, isWord t.Value) ∧
    (∀ (p : GoString) (d : Char) (rest : GoString),
      (p = [] ∨ ∃ e, isDelimiter e ∧ p.getLast? = some e) → isDelimiter d →
        parseScript (p ++ d :: rest) = parseScript p ++ Token.mk [] :: parseScript rest) ∧
    parseScript "SET  x 5\n".toList = tokens ["SET", "", "x", "5"] ∧
    analyse (tokens ["SET", "", "x", "5"]) = .ok [.AssignmentOperation [] "x".toList] := by
  refine ⟨?_, ?_, ?_, by decide, by decide⟩
  · unfold parseScript
    rw [parseScriptLoop_length]
    simp
  · exact parseScriptLoop_isWord s [] [] (fun _ hx => by cases hx)
  · intro p d rest hp hd
    rw [parseScript_append p _ hp, parseScript_delimiter_cons d hd]


/-! ## The integer read from a text: proofs -/

theorem ParseUintLoop_eq (s : List Char) (n : Nat) (hn : n < 2 ^ 64) :
    ParseUintLoop s n =
      if 2 ^ 64 ≤ decimalValue (s.takeWhile isDecimalDigit) n then (2 ^ 64 - 1, some .ErrRange)
      else if s.takeWhile isDecimalDigit = s then (decimalValue s n, none)
      else (0, some .ErrSyntax) := by
  induction s generalizing n with
  | nil =>
    simp only [ParseUintLoop, List.takeWhile_nil, decimalValue, List.foldl_nil, if_true]
    rw [if_neg (by omega)]
  | cons c rest ih =>
    by_cases hc : isDecimalDigit c = true
    · have hd := digit_bounds hc
      have hle := le_decimalValue (rest.takeWhile isDecimalDigit) (n * 10 + (c.toNat - 48))
      rw [List.takeWhile_cons_of_pos hc, decimalValue_cons, decimalValue_cons]
      simp only [ParseUintLoop, hc, if_true, List.cons.injEq, true_and]
      by_cases h1 : n ≥ (2 ^ 64 - 1) / 10 + 1
      · rw [if_pos h1, if_pos (by
          norm_num at h1
          omega)]
      · have h3 : (n * 10) % 2 ^ 64 = n * 10 := Nat.mod_eq_of_lt (by
          norm_num at h1
          omega)
        rw [if_neg h1, h3]
        by_cases h4 : n * 10 + (c.toNat - 48) < 2 ^ 64
        · rw [Nat.mod_eq_of_lt h4, if_neg (by omega)]
          exact ih _ h4
        · have h5 : (n * 10 + (c.toNat - 48)) % 2 ^ 64 = n * 10 + (c.toNat - 48) - 2 ^ 64 := by
            norm_num at h1
            omega
          rw [h5, if_pos (by omega), if_pos (by omega)]
    · rw [List.takeWhile_cons_of_neg hc]
      simp only [ParseUintLoop, hc, Bool.false_eq_true, if_false, decimalValue, List.foldl_nil]
      rw [if_neg (by omega), if_neg (by simp)]


/-- What `ParseUint` returns, told from the text. -/
theorem ParseUint_cases (body : List Char) :
    (body = [] ∧ ParseUint body = (0, some .ErrSyntax)) ∨
    (body ≠ [] ∧ 2 ^ 64 ≤ decimalValue (body.takeWhile isDecimalDigit) 0 ∧
      ParseUint body = (2 ^ 64 - 1, some .ErrRange)) ∨
    (body ≠ [] ∧ decimalValue (body.takeWhile isDecimalDigit) 0 < 2 ^ 64 ∧
      body.takeWhile isDecimalDigit = body ∧ ParseUint body = (decimalValue body 0, none)) ∨
    (body ≠ [] ∧ decimalValue (body.takeWhile isDecimalDigit) 0 < 2 ^ 64 ∧
      body.takeWhile isDecimalDigit ≠ body ∧ ParseUint body = (0, some .ErrSyntax)) := by
  cases body with
  | nil => exact Or.inl ⟨rfl, rfl⟩
  | cons c rest =>
    right
    have hne : c :: rest ≠ [] := by simp
    have hloop := ParseUintLoop_eq (c :: rest) 0 (by norm_num)
    have hpu : ParseUint (c :: rest) = ParseUintLoop (c :: rest) 0 := rfl
    rw [hpu, hloop]
    by_cases h1 : 2 ^ 64 ≤ decimalValue ((c :: rest).takeWhile isDecimalDigit) 0
    · exact Or.inl ⟨hne, h1, by rw [if_pos h1]⟩
    · by_cases h2 : (c :: rest).takeWhile isDecimalDigit = c :: rest
      · exact Or.inr (Or.inl ⟨hne, by omega, h2, by rw [if_neg h1, if_pos h2]⟩)
      · exact Or.inr (Or.inr ⟨hne, by omega, h2, by rw [if_neg h1, if_neg h2]⟩)

/-- The value of `ParseInt` is the integer told from the text. -/
theorem ParseInt_fst (s : GoString) : (ParseInt s).1 = coercedValue s := by
  cases s with
  | nil => rfl
  | cons c rest =>
    unfold ParseInt coercedValue
    simp only []
    generalize (if c = '+' ∨ c = '-' then rest else c :: rest) = body
    rcases ParseUint_cases body with ⟨hb, hp⟩ | ⟨hb, hv, hp⟩ | ⟨hb, hv, hl, hp⟩ | ⟨hb, hv, hl, hp⟩
    · rw [hp]
      simp [hb]
    · rw [hp, if_neg (by
        rintro (h | ⟨-, h⟩)
        · exact hb h
        · omega)]
      by_cases hc : c = '-'
      · simp only [hc, decide_True, Bool.not_true, Bool.false_eq_true, false_and, if_false,
          true_and, if_true, clampInt64]
        rw [if_pos (by norm_num), if_pos (by omega)]
      · simp only [hc, decide_False, Bool.not_false, true_and, if_false, clampInt64]
        rw [if_pos (by norm_num), if_neg (by omega), if_pos (by omega)]
    · rw [hp, hl, if_neg (by
        rintro (h | ⟨h, -⟩)
        · exact hb h
        · exact h rfl)]
      by_cases hc : c = '-'
      · simp only [hc, decide_True, Bool.not_true, Bool.false_eq_true, false_and, if_false,
          true_and, if_true, clampInt64]
        split_ifs <;> omega
      · simp only [hc, decide_False, Bool.not_false, true_and, if_false, Bool.false_eq_true,
          false_and, clampInt64]
        split_ifs <;> omega
    · rw [hp, if_pos (Or.inr ⟨hl, hv⟩)]


theorem AtoiFastLoop_not_digits (ds : List Char) (h : ¬ ∀ c ∈ ds, isDecimalDigit c = true)
    (n : Int) : AtoiFastLoop ds n = none := by
  induction ds generalizing n with
  | nil => exact absurd (fun c hc => by cases hc) h
  | cons c ds ih =>
    simp only [AtoiFastLoop]
    split
    · next hc =>
      apply ih
      intro hall
      apply h
      intro x hx
      rcases List.mem_cons.1 hx with rfl | hx
      · exact hc
      · exact hall x hx
    · rfl

theorem takeWhile_digits (body : List Char) :
    ∀ c ∈ body.takeWhile isDecimalDigit, isDecimalDigit c = true :=
  fun _ hc => List.mem_takeWhile_imp hc

/-- The value of `Atoi` is the integer told from the text. -/
theorem Atoi_fst (s : GoString) : (Atoi s).1 = coercedValue s := by
  by_cases hlen : 0 < s.length ∧ s.length < 19
  · cases s with
    | nil => rfl
    | cons c rest =>
      unfold Atoi coercedValue
      rw [if_pos hlen]
      simp only [or_comm (a := c = '-')]
      have hblen : (if c = '+' ∨ c = '-' then rest else c :: rest).length ≤ 18 := by
        simp only [List.length_cons] at hlen
        split_ifs
        · omega
        · simp only [List.length_cons]; omega
      generalize (if c = '+' ∨ c = '-' then rest else c :: rest) = body at hblen ⊢
      have hlead := decimalValue_lt (body.takeWhile isDecimalDigit) (takeWhile_digits body) 0
      have hleadlen : (body.takeWhile isDecimalDigit).length ≤ body.length :=
        (List.takeWhile_sublist _).length_le
      have hp := ten_pow_le (body.takeWhile isDecimalDigit).length (by omega)
      by_cases hb : body = []
      · subst hb
        simp
      · have hpos : ¬ body.length < 1 := by
          have := List.length_pos.2 hb
          omega
        rw [if_neg hpos]
        by_cases hall : ∀ x ∈ body, isDecimalDigit x = true
        · have htw : body.takeWhile isDecimalDigit = body := List.takeWhile_eq_self_iff.2 hall
          rw [htw] at hlead hp ⊢
          have hfast := AtoiFastLoop_digits body hall 0 (by omega)
          simp only [Nat.cast_zero] at hfast
          rw [hfast, if_neg (by
            rintro (h | ⟨h, -⟩)
            · exact hb h
            · exact h rfl)]
          simp only [clampInt64]
          by_cases hc : c = '-'
          · simp only [hc, if_true]
            rw [wrapInt64_of_range (by omega) (by omega)]
            split_ifs <;> omega
          · simp only [hc, if_false]
            split_ifs <;> omega
        · have htw : body.takeWhile isDecimalDigit ≠ body := fun h =>
            hall (List.takeWhile_eq_self_iff.1 h)
          rw [AtoiFastLoop_not_digits body hall, if_pos (Or.inr ⟨htw, by omega⟩)]
  · unfold Atoi
    rw [if_neg hlen]
    exact ParseInt_fst s


/-- The text `99999999999999999999` makes `Atoi` report an error, and yet an
`IncrementOperation` by `0` on a variable holding it stores
`9223372036854775807`, not the `0` that two zero operands would give. -/
theorem increment_parse_failure_not_zero :
    (Atoi "99999999999999999999".toList).2 = some .ErrRange ∧
    (Atoi "0".toList) = (0, none) ∧
    (executeOp (ExecState.mk (Memory.empty.write "x".toList "99999999999999999999".toList) false [])
        (.IncrementOperation "x".toList "0".toList)).mem "x".toList =
      some "9223372036854775807".toList ∧
    Sprint (0 + 0) = "0".toList ∧
    "9223372036854775807".toList ≠ "0".toList := by
  decide

/-- Claim C10, amended. An `IncrementOperation` or `DecrementOperation` executed with
the flag false raises no error and stores the decimal string of the 64-bit
wrap-around sum or difference of the two values `Atoi` returns, the error being
dropped.  That value is 0 when `Atoi` reports a syntax error, and the bound
`2^63 - 1` or `-2^63` when it reports a range error.  Told from the text alone it
is `coercedValue`: 0 when the text after one leading sign is empty, or has a
byte that is not a decimal digit while its leading digits write a number below
`2^64`; otherwise the number written by the leading digits, negated after `-`,
brought into the 64-bit range, so that `99999999999999999999` and
`99999999999999999999x` both give `2^63 - 1`.  On a variable holding `null`, an
increment by `3` stores `3`. -/
theorem increment_decrement_coercion (m : Memory) (out : List GoString)
    (variableName operand : GoString) :
    executeOp (ExecState.mk m false out) (.IncrementOperation variableName operand) =
      ExecState.mk
        (m.write variableName
          (Sprint (wrapInt64 ((Atoi (m.read variableName)).1 + (Atoi operand).1))))
        false out ∧
    executeOp (ExecState.mk m false out) (.DecrementOperation variableName operand) =
      ExecState.mk
        (m.write variableName
          (Sprint (wrapInt64 ((Atoi (m.read variableName)).1 - (Atoi operand).1))))
        false out ∧
    (∀ s : GoString,
      (Atoi s).2 = none ∨ ((Atoi s).2 = some .ErrSyntax ∧ (Atoi s).1 = 0) ∨
        ((Atoi s).2 = some .ErrRange ∧ ((Atoi s).1 = 2 ^ 63 - 1 ∨ (Atoi s).1 = -(2 ^ 63)))) ∧
    (executeOp (ExecState.mk (m.write variableName "null".toList) false out)
        (.IncrementOperation variableName "3".toList)).mem variableName = some "3".toList ∧
    (∀ s : GoString, (Atoi s).1 = coercedValue s) ∧
    executeOp (ExecState.mk m false out) (.IncrementOperation variableName operand) =
      ExecState.mk
        (m.write variableName
          (Sprint (wrapInt64 (coercedValue (m.read variableName) + coercedValue operand))))
        false out ∧
    executeOp (ExecState.mk m false out) (.DecrementOperation variableName operand) =
      ExecState.mk
        (m.write variableName
          (Sprint (wrapInt64 (coercedValue (m.read variableName) - coercedValue operand))))
        false out ∧
    Atoi "99999999999999999999".toList = (2 ^ 63 - 1, some .ErrRange) ∧
    Atoi "99999999999999999999x".toList = (2 ^ 63 - 1, some .ErrRange) ∧
    Atoi "12x".toList = (0, some .ErrSyntax) ∧
    Atoi "null".toList = (0, some .ErrSyntax) := by
  refine ⟨rfl, rfl, Atoi_cases, ?_, Atoi_fst, ?_, ?_, by decide, by decide, by decide,
    by decide⟩
  · have h1 : Atoi "null".toList = (0, some .ErrSyntax) := by decide
    have h2 : Atoi "3".toList = (3, none) := by decide
    have h3 : Sprint (wrapInt64 (0 + 3)) = "3".toList := by decide
    simp only [executeOp, Bool.false_eq_true, if_false, Memory.read_write_same, h1, h2, h3]
    simp [Memory.write]
  · rw [← Atoi_fst, ← Atoi_fst]
    rfl
  · rw [← Atoi_fst, ← Atoi_fst]
    rfl

/-! ## The text on standard output: proofs -/

theorem lineCount_append (a b : GoString) : lineCount (a ++ b) = lineCount a + lineCount b := by
  simp [lineCount]

theorem lineCount_of_no_newline (v : GoString) (h : '\n' ∉ v) : lineCount v = 0 := by
  unfold lineCount
  rw [List.countP_eq_zero]
  intro c hc
  simp only [beq_iff_eq]
  rintro rfl
  exact h hc

theorem no_newline_of_isWord (v : GoString) (h : isWord v) : '\n' ∉ v :=
  fun hc => h _ hc (Or.inr rfl)

theorem lineCount_stdoutText_ge (printed : List GoString) :
    printed.length ≤ lineCount (stdoutText printed) := by
  induction printed with
  | nil => simp [stdoutText, lineCount]
  | cons v rest ih =>
    simp only [stdoutText, lineCount_append, List.length_cons]
    have : lineCount ('\n' :: stdoutText rest) = lineCount (stdoutText rest) + 1 := by
      simp [lineCount]
    omega

theorem lineCount_stdoutText (printed : List GoString) (h : ∀ v ∈ printed, '\n' ∉ v) :
    lineCount (stdoutText printed) = printed.length := by
  induction printed with
  | nil => simp [stdoutText, lineCount]
  | cons v rest ih =>
    simp only [stdoutText, lineCount_append, List.length_cons]
    have h1 : lineCount ('\n' :: stdoutText rest) = lineCount (stdoutText rest) + 1 := by
      simp [lineCount]
    rw [h1, lineCount_of_no_newline v (h v (List.mem_cons_self _ _)),
      ih (fun x hx => h x (List.mem_cons_of_mem _ hx))]
    omega

/-- The operations `analyse` makes carry only token values and the empty string. -/
theorem analyseLoop_strings (toks : List Token) (htoks : ∀ t ∈ toks, isWord t.Value)
    (fuel cursor : Nat) (acc ops : List Operation)
    (hacc : ∀ op ∈ acc, ∀ w ∈ operationStrings op, isWord w)
    (h : analyseLoop toks fuel cursor acc = .ok ops) :
    ∀ op ∈ ops, ∀ w ∈ operationStrings op, isWord w := by
  have hw : ∀ (i : Nat) (a : Token), toks[i]? = some a → isWord a.Value := fun i a hi =>
    htoks a (List.getElem?_mem hi)
  have hnil : isWord ([] : GoString) := fun _ hx => by cases hx
  induction fuel generalizing cursor acc with
  | zero =>
    rw [analyseLoop.eq_def] at h
    by_cases hc : cursor < toks.length
    · simp [hc] at h
    · simp only [hc, if_false, Except.ok.injEq] at h
      subst h
      exact hacc
  | succ fuel ih =>
    rw [analyseLoop] at h
    split at h
    · repeat' split at h
      all_goals first
        | cases h
        | exact ih _ _ hacc h
        | (refine ih _ _ ?_ h
           intro op hop
           rcases List.mem_append.1 hop with h1 | h1
           · exact hacc op h1
           · rw [List.mem_singleton] at h1
             subst h1
             intro w hw1
             first
               | (cases hw1; done)
               | (simp only [operationStrings, List.mem_cons, List.mem_singleton,
                    List.not_mem_nil, or_false] at hw1
                  rcases hw1 with rfl | rfl | rfl <;> first
                    | exact hnil
                    | (apply hw; assumption)))
    · simp only [Except.ok.injEq] at h
      subst h
      exact hacc


theorem Memory.write_words (m : Memory) (n x : GoString)
    (hm : ∀ k v, m k = some v → isWord v) (hx : isWord x) :
    ∀ k v, (m.write n x) k = some v → isWord v := by
  intro k v h
  simp only [Memory.write] at h
  split at h
  · cases h
    exact hx
  · exact hm k v h

theorem Memory.read_words (m : Memory) (n : GoString) (hm : ∀ k v, m k = some v → isWord v) :
    isWord (m.read n) := by
  unfold Memory.read
  cases hn : m n with
  | none => exact fun _ hx => by cases hx
  | some v => exact hm n v hn

/-- One step keeps memory and output free of spaces and newlines when the strings
of the operation are. -/
theorem executeOp_words (st : ExecState) (op : Operation)
    (hm : ∀ k v, st.mem k = some v → isWord v) (ho : ∀ v ∈ st.output, isWord v)
    (hop : ∀ w ∈ operationStrings op, isWord w) :
    (∀ k v, (executeOp st op).mem k = some v → isWord v) ∧
      ∀ v ∈ (executeOp st op).output, isWord v := by
  have hnull : isWord "null".toList := by decide
  cases op with
  | EndOfBranchOperation =>
    simp only [executeOp]
    split <;> exact ⟨hm, ho⟩
  | DeclareOperation variableName =>
    simp only [executeOp]
    split
    · exact ⟨hm, ho⟩
    · exact ⟨Memory.write_words _ _ _ hm hnull, ho⟩
  | AssignmentOperation variableName variableValue =>
    simp only [executeOp]
    split
    · exact ⟨hm, ho⟩
    · exact ⟨Memory.write_words _ _ _ hm (hop variableValue (by simp [operationStrings])), ho⟩
  | PrintOperation variableName variableValue =>
    simp only [executeOp]
    split
    · exact ⟨hm, ho⟩
    · refine ⟨hm, fun v hv => ?_⟩
      rcases List.mem_append.1 hv with h1 | h1
      · exact ho v h1
      · rw [List.mem_singleton] at h1
        subst h1
        exact Memory.read_words _ _ hm
  | IncrementOperation variableName incrementValue =>
    simp only [executeOp]
    split
    · exact ⟨hm, ho⟩
    · exact ⟨Memory.write_words _ _ _ hm (isWord_Sprint _), ho⟩
  | DecrementOperation variableName decrementValue =>
    simp only [executeOp]
    split
    · exact ⟨hm, ho⟩
    · exact ⟨Memory.write_words _ _ _ hm (isWord_Sprint _), ho⟩
  | BranchOperation compareTarget comparisonOperator comparison =>
    simp only [executeOp]
    split
    · exact ⟨hm, ho⟩
    · split <;> exact ⟨hm, ho⟩

theorem executeLoop_words (ops : List Operation) (st : ExecState)
    (hm : ∀ k v, st.mem k = some v → isWord v) (ho : ∀ v ∈ st.output, isWord v)
    (hops : ∀ op ∈ ops, ∀ w ∈ operationStrings op, isWord w) :
    ∀ v ∈ (executeLoop ops st).output, isWord v := by
  induction ops generalizing st with
  | nil => exact ho
  | cons op ops ih =>
    rw [executeLoop_cons]
    have h := executeOp_words st op hm ho (hops op (List.mem_cons_self _ _))
    exact ih _ h.1 h.2 (fun x hx => hops x (List.mem_cons_of_mem _ hx))

/-- What a script prints never contains a space or a newline. -/
theorem execute_of_script_words (script : GoString) (ops : List Operation)
    (h : analyse (parseScript script) = .ok ops) : ∀ v ∈ execute ops, isWord v := by
  have htoks : ∀ t ∈ parseScript script, isWord t.Value :=
    parseScriptLoop_isWord script [] [] (fun _ hx => by cases hx)
  have hops := analyseLoop_strings (parseScript script) htoks _ 0 [] ops
    (fun _ hx => by cases hx) h
  exact executeLoop_words ops ExecState.initial (fun k v hk => by cases hk)
    (fun _ hx => by cases hx) hops

/-- The operations `SET x a\nb; PRINT x`, with a newline inside the value, hand one
string to `fmt.Println` and write the text `a\nb\n`: two output lines for one
`PrintOperation`. -/
theorem print_of_multiline_value_two_lines :
    execute [.AssignmentOperation "x".toList "a\nb".toList, .PrintOperation "x".toList []] =
      ["a\nb".toList] ∧
    stdoutText
        (execute [.AssignmentOperation "x".toList "a\nb".toList, .PrintOperation "x".toList []]) =
      "a\nb\n".toList ∧
    lineCount (stdoutText
        (execute [.AssignmentOperation "x".toList "a\nb".toList,
          .PrintOperation "x".toList []])) = 2 ∧
    [.AssignmentOperation "x".toList "a\nb".toList, .PrintOperation "x".toList []].countP
      isPrint = 1 := by
  decide

/-- Claim C8, amended. What `execute` hands to `fmt.Println`, started on empty memory
with the flag false, is exactly one string per `PrintOperation` reached with the
flag false, in execution order, each the value of the variable in memory at
that moment, or the empty string when the variable is absent, and standard
output is these strings, each followed by a newline; an operation adds to the
output that string and nothing else; a `PrintOperation` changes neither memory
nor flag.  There are never more such strings than `PrintOperation`s, and never
fewer output lines than strings; there are never more output lines than
`PrintOperation`s when no printed string contains a newline, as is the case for
every operation list that `analyse` returns on the tokens of `parseScript`. -/
theorem execute_output_is_printed_lines (operationList : List Operation) :
    execute operationList = printedLines operationList ExecState.initial ∧
    (∀ (st : ExecState) (op : Operation),
      (executeOp st op).output = st.output ++ (printedLine st op).toList) ∧
    (∀ (st : ExecState) (variableName variableValue : GoString),
      (executeOp st (.PrintOperation variableName variableValue)).mem = st.mem ∧
      (executeOp st (.PrintOperation variableName variableValue)).shouldSkipProcessing =
        st.shouldSkipProcessing) ∧
    (execute operationList).length ≤ operationList.countP isPrint ∧
    (execute operationList).length ≤ lineCount (stdoutText (execute operationList)) ∧
    ((∀ v ∈ execute operationList, '\n' ∉ v) →
      lineCount (stdoutText (execute operationList)) ≤ operationList.countP isPrint) ∧
    (∀ script : GoString, analyse (parseScript script) = .ok operationList →
      lineCount (stdoutText (execute operationList)) ≤ operationList.countP isPrint) := by
  have hout : execute operationList = printedLines operationList ExecState.initial := by
    unfold execute
    rw [executeLoop_output]
    rfl
  have hlen : (execute operationList).length ≤ operationList.countP isPrint := by
    rw [hout]
    exact printedLines_length_le _ _
  refine ⟨hout, executeOp_output, ?_, hlen, lineCount_stdoutText_ge _, ?_, ?_⟩
  · intro st variableName variableValue
    simp only [executeOp]
    split <;> exact ⟨rfl, rfl⟩
  · intro h
    rw [lineCount_stdoutText _ h]
    exact hlen
  · intro script h
    rw [lineCount_stdoutText _ (fun v hv =>
      no_newline_of_isWord v (execute_of_script_words script operationList h v hv))]
    exact hlen

end Hello
